import Mathlib

/-!
Verification of the event-sourced DID resolution and credential
verification core ("did-example" repository).

The TypeScript source is shallowly embedded:

* JavaScript strings are Lean `String`s; `toLowerCase` is modelled by
  `lowerStr` (character-wise `Char.toLower`, the behaviour of
  `toLowerCase` on the ASCII identifiers the system handles), and
  `split(c)` by the structural `splitOnChar` on the underlying
  character list.
* Timestamps are `Nat` values in epoch seconds: the source stores ISO
  strings and converts with `new Date(x).getTime() / 1000`; the
  ISO-string round trip is collapsed, keeping the numeric ordering the
  code actually compares.
* `uint256` values (`validTo`, block numbers) are `Nat`; the
  `toString` / `parseInt` round trip the source performs when an event
  is persisted and replayed is collapsed for the same reason.
* The relational store is a record of lists of rows; `findOne` is
  `List.find?`, an `order:` clause is a stable sort (`sortBy`) by the
  corresponding comparison, and a `save` of a fresh entity appends a
  row with the next generated primary key.
* A JavaScript `Map` is an association list in first-insertion order:
  `mapSet` overwrites the value of an existing key in place and
  appends a new key at the end, exactly the iteration order of `Map`.
* `Date.now()` is an explicit `now : Nat` argument threaded to each
  entry point that reads the clock.
-/

namespace DidExample

/-- Character-wise lowercasing, the model of JavaScript
`String.prototype.toLowerCase` used throughout the source. -/
def lowerStr (s : String) : String :=
  ⟨s.data.map Char.toLower⟩

/-- `l.split(c)` on the character list of a JavaScript string:
splits at every occurrence of `c`, keeping empty segments. -/
def splitOnChar (c : Char) : List Char → List (List Char)
  | [] => [[]]
  | a :: rest =>
    match splitOnChar c rest with
    | [] => [[]]
    | h :: t => if a = c then [] :: h :: t else (a :: h) :: t

/-- `s.startsWith(p)` for character lists (structural, so that concrete
witnesses evaluate by `decide`). -/
def startsWithL (p l : List Char) : Bool :=
  l.take p.length == p

/-- Stable insertion of `a` into `l`: `a` goes before the first
element `b` with `le a b`. -/
def insertBy {α : Type} (le : α → α → Bool) (a : α) : List α → List α
  | [] => [a]
  | b :: l => if le a b then a :: b :: l else b :: insertBy le a l

/-- Stable insertion sort, the model of a SQL `ORDER BY` clause (a
stable sort by the given comparison; structural so that concrete
stores evaluate by `decide`). -/
def sortBy {α : Type} (le : α → α → Bool) : List α → List α
  | [] => []
  | a :: l => insertBy le a (sortBy le l)

/-- JavaScript `Map.set`: overwrite the value of an existing key in
place (keeping its position), append a fresh key at the end. -/
def mapSet {κ ν : Type} [DecidableEq κ] (k : κ) (v : ν) :
    List (κ × ν) → List (κ × ν)
  | [] => [(k, v)]
  | (k', v') :: rest =>
    if k' = k then (k, v) :: rest else (k', v') :: mapSet k v rest

/-! ## Data model: ledger events and projection rows -/

/-- The kind-specific argument bag persisted with an event
(`OwnerChangedArgs` / `DelegateChangedArgs` / `AttributeChangedArgs`
in `did.service.ts`).  `previousChange` is kept although the replay
logic never reads it. -/
inductive EvArgs : Type
  | ownerArgs (identity owner : String) (previousChange : Nat)
  | delegArgs (identity delegateType delegate : String)
      (validTo previousChange : Nat)
  | attrArgs (identity name value : String) (validTo previousChange : Nat)
deriving DecidableEq, Repr

/-- A row of the append-only `Event` table (`entities/Event.ts`):
generated primary key `id`, transaction hash, block number, event name
and the argument bag.  The event name of a row written by the
ingestion pipeline is determined by the argument constructor, so it is
derived (`EventRec.eventName`) rather than stored twice. -/
structure EventRec : Type where
  id : Nat
  transactionHash : String
  blockNumber : Nat
  args : EvArgs
deriving DecidableEq, Repr

/-- The `eventName` column: `'DIDOwnerChanged' | 'DIDDelegateChanged' |
'DIDAttributeChanged'`, as written by `blockchain.service.ts`. -/
def EventRec.eventName (e : EventRec) : String :=
  match e.args with
  | .ownerArgs .. => "DIDOwnerChanged"
  | .delegArgs .. => "DIDDelegateChanged"
  | .attrArgs .. => "DIDAttributeChanged"

/-- `args.identity`, present in every argument bag. -/
def EventRec.identity (e : EventRec) : String :=
  match e.args with
  | .ownerArgs i _ _ => i
  | .delegArgs i _ _ _ _ => i
  | .attrArgs i _ _ _ _ => i

/-- A row of the `Identity` projection table: primary-key `address`,
nullable `controller`. -/
structure IdentityRow : Type where
  address : String
  controller : Option String
deriving DecidableEq, Repr

/-- A row of the `Delegate` projection table.  The `identity` relation
is stored by its foreign key `identityAddress`. -/
structure DelegateRow : Type where
  id : Nat
  identityAddress : String
  delegateType : String
  delegateAddress : String
  validTo : Nat
deriving DecidableEq, Repr

/-- A row of the `Attribute` projection table. -/
structure AttributeRow : Type where
  id : Nat
  identityAddress : String
  name : String
  value : String
  validTo : Nat
deriving DecidableEq, Repr

/-- The fields of a delegate that `buildDidDocument` and
`reconstructStateFromEvents` actually read (the reconstructed
historical entries have exactly these fields). -/
structure DelegateView : Type where
  delegateType : String
  delegateAddress : String
  validTo : Nat
deriving DecidableEq, Repr

/-- The fields of an attribute read by `buildDidDocument`. -/
structure AttributeView : Type where
  name : String
  value : String
  validTo : Nat
deriving DecidableEq, Repr

def DelegateRow.toView (d : DelegateRow) : DelegateView :=
  ⟨d.delegateType, d.delegateAddress, d.validTo⟩

def AttributeRow.toView (a : AttributeRow) : AttributeView :=
  ⟨a.name, a.value, a.validTo⟩

/-- `CredentialStatus` enum of `entities/Credential.ts`. -/
inductive CredStatus : Type
  | active | revoked | expired
deriving DecidableEq, Repr

/-- A row of the `Credential` table, with the persisted proof already
parsed to its `proofValue` (the stored proof JSON is written and read
back by the same service, so the JSON round trip is collapsed). -/
structure CredentialRec : Type where
  id : String
  issuer : String
  subject : String
  ctype : List String
  claims : List (String × String)
  issuanceDate : Nat
  expirationDate : Option Nat
  status : CredStatus
  proofValue : String
deriving DecidableEq, Repr

/-- The relational store: the event log plus the three projection
tables and the credential table, with the next generated primary keys.
-/
structure Db : Type where
  events : List EventRec
  nextEventId : Nat
  identities : List IdentityRow
  delegates : List DelegateRow
  nextDelegateId : Nat
  attributes : List AttributeRow
  nextAttributeId : Nat
  credentials : List CredentialRec
deriving DecidableEq, Repr

/-- The ledger adapter (`ethers.JsonRpcProvider`) as seen by the core:
a head block number and a total block-number → timestamp lookup
(`getBlock(n).timestamp`; in this model every block in range exists,
so the `!block` recovery branch of the binary search never fires). -/
structure Chain : Type where
  headBlock : Nat
  blockTimestamp : Nat → Nat

/-! ## `did.service.ts` -/

/-- `extractAddress`: split on `':'`, take the last segment when there
are several (handles both `did:ethr:0x...` and a bare address), then
lowercase. -/
def extractAddress (did : String) : String :=
  let parts := splitOnChar ':' did.data
  lowerStr ⟨if parts.length > 1 then parts.getLastD [] else did.data⟩

/-- `ORDER BY blockNumber ASC, id ASC`. -/
def ascLe (a b : EventRec) : Bool :=
  a.blockNumber < b.blockNumber ||
    (a.blockNumber == b.blockNumber && a.id ≤ b.id)

/-- `ORDER BY blockNumber DESC, id DESC`. -/
def descLe (a b : EventRec) : Bool :=
  b.blockNumber < a.blockNumber ||
    (b.blockNumber == a.blockNumber && b.id ≤ a.id)

/-- W3C verification method (`VerificationMethod` interface); optional
fields are `Option`, `none` when the source leaves them `undefined`. -/
structure VerificationMethod : Type where
  id : String
  type : String
  controller : String
  blockchainAccountId : Option String := none
  publicKeyBase64 : Option String := none
  publicKeyHex : Option String := none
deriving DecidableEq, Repr

/-- W3C service endpoint entry. -/
structure ServiceEndpoint : Type where
  id : String
  type : String
  serviceEndpoint : String
deriving DecidableEq, Repr

/-- W3C DID document (`DidDocument` interface).  `controller` and
`service` are `Option` because the source adds those keys only
conditionally; `context` models the `@context` array. -/
structure DidDocument : Type where
  context : List String
  id : String
  controller : Option String
  verificationMethod : List VerificationMethod
  authentication : List String
  assertionMethod : List String
  service : Option (List ServiceEndpoint)
deriving DecidableEq, Repr

def DID_CONTEXTS : List String :=
  ["https://www.w3.org/ns/did/v1",
   "https://w3id.org/security/suites/secp256k1recovery-2020/v2",
   "https://w3id.org/security/suites/secp256k1-2019/v1"]

/-- The single public-key verification method derived from a
`did/pub/...` attribute: `parts[2] || 'Unknown'` etc. follow the
JavaScript falsy default (absent *or empty* segment falls back). -/
def keyMethodOf (did : String) (index : Nat) (attr : AttributeView) :
    VerificationMethod :=
  let parts := splitOnChar '/' attr.name.data
  let p2 := parts.getD 2 []
  let algorithm : String := if p2 = [] then "Unknown" else ⟨p2⟩
  let p4 := parts.getD 4 []
  let encoding : String := if p4 = [] then "base64" else ⟨p4⟩
  { id := did ++ "#key-" ++ toString index
    type := algorithm ++ "VerificationKey2020"
    controller := did
    publicKeyBase64 := if encoding = "base64" then some attr.value else none
    publicKeyHex := if encoding = "hex" then some attr.value else none }

/-- The `keyType` segment (`parts[3] || 'veriKey'`) selecting the
verification relationship of a `did/pub/...` attribute. -/
def keyTypeOf (attr : AttributeView) : String :=
  let parts := splitOnChar '/' attr.name.data
  let p3 := parts.getD 3 []
  if p3 = [] then "veriKey" else ⟨p3⟩

/-- The verification method pushed for the `index`-th valid delegate. -/
def delegateMethodOf (did : String) (index : Nat) (d : DelegateView) :
    VerificationMethod :=
  { id := did ++ "#delegate-" ++ toString index
    type := "EcdsaSecp256k1RecoveryMethod2020"
    controller := did
    blockchainAccountId := some ("eip155:1:" ++ d.delegateAddress) }

/-- `buildDidDocument(address, controller, delegates, attributes)`.
`now` is the `Math.floor(Date.now() / 1000)` read at the top of the
function; entries with `validTo ≤ now` are filtered out *inside* the
builder.  The `forEach` pushes are modelled by list appends in the
same order: controller method, then valid delegates, then
`did/pub/...` attribute keys. -/
def buildDidDocument (address : String) (controller : Option String)
    (delegates : List DelegateView) (attributes : List AttributeView)
    (now : Nat) : DidDocument :=
  let did := "did:ethr:" ++ address
  let validDelegates := delegates.filter (fun d => now < d.validTo)
  let validAttributes := attributes.filter (fun a => now < a.validTo)
  let controllerMethod : VerificationMethod :=
    { id := did ++ "#controller"
      type := "EcdsaSecp256k1RecoveryMethod2020"
      controller := match controller with
        | some c => "did:ethr:" ++ c
        | none => did
      blockchainAccountId := some ("eip155:1:" ++ address) }
  let pubAttributes :=
    validAttributes.filter (fun a => startsWithL "did/pub/".data a.name.data)
  let verificationMethod :=
    controllerMethod ::
      (validDelegates.enum.map (fun p => delegateMethodOf did p.1 p.2) ++
        pubAttributes.enum.map (fun p => keyMethodOf did p.1 p.2))
  let authentication :=
    (did ++ "#controller") ::
      ((validDelegates.enum.filter (fun p => p.2.delegateType = "sigAuth")).map
          (fun p => did ++ "#delegate-" ++ toString p.1) ++
        (pubAttributes.enum.filter (fun p => keyTypeOf p.2 = "sigAuth")).map
          (fun p => did ++ "#key-" ++ toString p.1))
  let assertionMethod :=
    (did ++ "#controller") ::
      ((validDelegates.enum.filter (fun p => p.2.delegateType = "veriKey")).map
          (fun p => did ++ "#delegate-" ++ toString p.1) ++
        (pubAttributes.enum.filter (fun p => keyTypeOf p.2 = "veriKey")).map
          (fun p => did ++ "#key-" ++ toString p.1))
  let service : List ServiceEndpoint :=
    (validAttributes.filter
        (fun a => startsWithL "did/svc/".data a.name.data)).enum.map
      (fun p =>
        { id := did ++ "#service-" ++ toString p.1
          type := ⟨p.2.name.data.drop "did/svc/".length⟩
          serviceEndpoint := p.2.value })
  { context := DID_CONTEXTS
    id := did
    controller :=
      match controller with
      | some c => if lowerStr c ≠ lowerStr address
          then some ("did:ethr:" ++ c) else none
      | none => none
    verificationMethod := verificationMethod
    authentication := authentication
    assertionMethod := assertionMethod
    service := if service.length > 0 then some service else none }

/-- The delegate rows loaded through the `delegates` relation of an
identity. -/
def delegatesOf (db : Db) (address : String) : List DelegateRow :=
  db.delegates.filter (fun d => d.identityAddress == address)

/-- The attribute rows loaded through the `attributes` relation. -/
def attributesOf (db : Db) (address : String) : List AttributeRow :=
  db.attributes.filter (fun a => a.identityAddress == address)

/-- `resolve(did)`: current-state resolution.  An identity without a
projection row yields `buildDidDocument(address, null, [], [])`. -/
def resolve (db : Db) (did : String) (now : Nat) : DidDocument :=
  let address := extractAddress did
  match db.identities.find? (fun i => i.address == address) with
  | none => buildDidDocument address none [] [] now
  | some identity =>
      buildDidDocument address identity.controller
        ((delegatesOf db address).map DelegateRow.toView)
        ((attributesOf db address).map AttributeRow.toView) now

/-- The `{did, owner, isSelfOwned}` answer of `getOwner`. -/
structure OwnerResult : Type where
  did : String
  owner : String
  isSelfOwned : Bool
deriving DecidableEq, Repr

/-- `getOwner(did)`: `identity?.controller || address` — the JavaScript
falsy fallback also replaces an empty-string controller. -/
def getOwner (db : Db) (did : String) : OwnerResult :=
  let address := extractAddress did
  let identity := db.identities.find? (fun i => i.address == address)
  let controller : Option String :=
    match identity with
    | some i => i.controller
    | none => none
  { did := "did:ethr:" ++ address
    owner := match controller with
      | some c => if c = "" then address else c
      | none => address
    isSelfOwned :=
      match controller with
      | some c => c = "" || c == address
      | none => true }

/-- The binary-search loop of `getBlockByTimestamp`: while `low <
high`, probe `mid = (low + high) / 2` and keep the half whose
timestamps can still contain the target. -/
def searchLoop (ts : Nat → Nat) (targetTime low high : Nat) : Nat :=
  if _h : low < high then
    let mid := (low + high) / 2
    if ts mid < targetTime then searchLoop ts targetTime (mid + 1) high
    else searchLoop ts targetTime low mid
  else low
termination_by high - low
decreasing_by
  · omega
  · omega

/-- `getBlockByTimestamp(timestamp)`: binary search over
`[0, latestBlock.number]`.  The argument is already in epoch seconds
(`Math.floor(timestamp.getTime() / 1000)` collapsed). -/
def getBlockByTimestamp (chain : Chain) (targetTime : Nat) : Nat :=
  searchLoop chain.blockTimestamp targetTime 0 chain.headBlock

/-- The `{owner, delegates, attributes}` record returned by
`reconstructStateFromEvents` (owner `null` when no `DIDOwnerChanged`
event was replayed). -/
structure HistState : Type where
  owner : Option String
  delegates : List DelegateView
  attributes : List AttributeView
deriving DecidableEq, Repr

/-- The replay loop of `reconstructStateFromEvents`: walk the ordered
events, `break` past `maxBlock`, owner overwritten by each
`DIDOwnerChanged`, delegates keyed by the *string*
`delegateType + ":" + delegate.toLowerCase()`, attributes keyed by
`name`; latest write wins in insertion order (JavaScript `Map`). -/
def reconstructLoop (maxBlock : Nat) :
    List EventRec → Option String → List (String × DelegateView) →
      List (String × AttributeView) →
      Option String × List (String × DelegateView) ×
        List (String × AttributeView)
  | [], owner, dm, am => (owner, dm, am)
  | e :: rest, owner, dm, am =>
    if e.blockNumber > maxBlock then (owner, dm, am)
    else
      match e.args with
      | .ownerArgs _ o _ =>
          reconstructLoop maxBlock rest (some (lowerStr o)) dm am
      | .delegArgs _ dt d v _ =>
          reconstructLoop maxBlock rest owner
            (mapSet (dt ++ ":" ++ lowerStr d) ⟨dt, lowerStr d, v⟩ dm) am
      | .attrArgs _ n val v _ =>
          reconstructLoop maxBlock rest owner dm (mapSet n ⟨n, val, v⟩ am)

/-- `reconstructStateFromEvents(address, events, maxBlock)` (the
`address` parameter is unused by the source body as well). -/
def reconstructStateFromEvents (_address : String)
    (events : List EventRec) (maxBlock : Nat) : HistState :=
  let (owner, dm, am) := reconstructLoop maxBlock events none [] []
  ⟨owner, dm.map Prod.snd, am.map Prod.snd⟩

/-- The historical state computed inside `resolveAtBlock`: all events
with `blockNumber ≤ target` ordered by `(blockNumber, id)` ascending,
filtered to the identity, then replayed. -/
def resolveAtBlockState (db : Db) (did : String) (blockNumber : Nat) :
    HistState :=
  let address := extractAddress did
  let events :=
    sortBy ascLe (db.events.filter (fun e => e.blockNumber ≤ blockNumber))
  let identityEvents :=
    events.filter (fun e => lowerStr e.identity == lowerStr address)
  reconstructStateFromEvents address identityEvents blockNumber

/-- `resolveAtBlock(did, blockNumber)`: replay then build.  `now` is
the wall clock read inside `buildDidDocument`. -/
def resolveAtBlock (db : Db) (did : String) (blockNumber now : Nat) :
    DidDocument :=
  let address := extractAddress did
  let st := resolveAtBlockState db did blockNumber
  buildDidDocument address st.owner st.delegates st.attributes now

/-- `resolveAtTime(did, timestamp)`. -/
def resolveAtTime (db : Db) (chain : Chain) (did : String)
    (timestamp now : Nat) : DidDocument :=
  resolveAtBlock db did (getBlockByTimestamp chain timestamp) now

/-- `args.owner` of an owner-changed row (the callers only read it
after filtering `eventName = 'DIDOwnerChanged'`). -/
def EventRec.ownerArg (e : EventRec) : String :=
  match e.args with
  | .ownerArgs _ o _ => o
  | _ => ""

/-- `getOwnerAtBlock(did, blockNumber)`: most recent
`DIDOwnerChanged` for the identity at or before the block (descending
scan, first match), defaulting to the address itself. -/
def getOwnerAtBlock (db : Db) (did : String) (blockNumber : Nat) :
    String :=
  let address := extractAddress did
  let ownerEvents :=
    sortBy descLe (db.events.filter (fun e =>
      e.eventName == "DIDOwnerChanged" && e.blockNumber ≤ blockNumber))
  match ownerEvents.find?
      (fun e => lowerStr e.identity == lowerStr address) with
  | some e => lowerStr e.ownerArg
  | none => lowerStr address

/-- `getOwnerAtTime(did, timestamp)`. -/
def getOwnerAtTime (db : Db) (chain : Chain) (did : String)
    (timestamp : Nat) : String :=
  getOwnerAtBlock db did (getBlockByTimestamp chain timestamp)

/-- The delegate-state fold inside `wasValidSignerAtBlock`: a
JavaScript `Map` from the string key
`delegateType + ":" + delegate.toLowerCase()` to `parseInt(validTo)`.
-/
def delegateStateLoop (address : String) :
    List EventRec → List (String × Nat) → List (String × Nat)
  | [], m => m
  | e :: rest, m =>
    match e.args with
    | .delegArgs i dt d v _ =>
        if lowerStr i == lowerStr address then
          delegateStateLoop address rest
            (mapSet (dt ++ ":" ++ lowerStr d) v m)
        else delegateStateLoop address rest m
    | _ => delegateStateLoop address rest m

/-- `wasValidSignerAtBlock(did, signerAddress, blockNumber)`: the
signer is the owner at the block, or some delegate entry whose parsed
address (`key.split(':')[1]`) matches and whose `validTo` exceeds the
*timestamp of the block*. -/
def wasValidSignerAtBlock (db : Db) (chain : Chain) (did : String)
    (signerAddress : String) (blockNumber : Nat) : Bool :=
  let signer := lowerStr signerAddress
  let ownerAtBlock := getOwnerAtBlock db did blockNumber
  if ownerAtBlock == signer then true
  else
    let address := extractAddress did
    let events :=
      sortBy ascLe (db.events.filter (fun e =>
        e.eventName == "DIDDelegateChanged" && e.blockNumber ≤ blockNumber))
    let delegateState := delegateStateLoop address events []
    let blockTimestamp := chain.blockTimestamp blockNumber
    delegateState.any (fun p =>
      (splitOnChar ':' p.1.data).getD 1 [] == signer.data &&
        blockTimestamp < p.2)

/-- `wasValidSignerAtTime(did, signerAddress, timestamp)`. -/
def wasValidSignerAtTime (db : Db) (chain : Chain)
    (did signerAddress : String) (timestamp : Nat) : Bool :=
  wasValidSignerAtBlock db chain did signerAddress
    (getBlockByTimestamp chain timestamp)

/-! ## `blockchain.service.ts`: the ingestion pipeline

An incoming ledger event, with the `bytes32` fields already decoded to
strings (`ethers.decodeBytes32String` / `toUtf8String`, deterministic
preprocessing done before any state is touched) and the numeric fields
as `Nat`. -/

inductive IngestEvent : Type
  | ownerChanged (identity owner : String) (previousChange : Nat)
      (transactionHash : String) (blockNumber : Nat)
  | delegateChanged (identity delegateType delegate : String)
      (validTo previousChange : Nat)
      (transactionHash : String) (blockNumber : Nat)
  | attributeChanged (identity name value : String)
      (validTo previousChange : Nat)
      (transactionHash : String) (blockNumber : Nat)
deriving DecidableEq, Repr

/-- `eventRepository.save({...})`: the `Event` entity has a *generated*
primary key and no unique constraint, so every save inserts a fresh
row. -/
def insertEvent (db : Db) (transactionHash : String) (blockNumber : Nat)
    (args : EvArgs) : Db :=
  { db with
    events := db.events ++
      [⟨db.nextEventId, transactionHash, blockNumber, args⟩]
    nextEventId := db.nextEventId + 1 }

/-- The find-or-create of the `Identity` row shared by all three
handlers (a fresh row has `controller` unset, i.e. `null`). -/
def ensureIdentity (identities : List IdentityRow) (addressLower : String) :
    List IdentityRow :=
  match identities.find? (fun i => i.address == addressLower) with
  | some _ => identities
  | none => identities ++ [⟨addressLower, none⟩]

/-- The identity upsert of `handleOwnerChanged`: find or create the
row, set `controller := ownerLower`, save. -/
def upsertController (identities : List IdentityRow)
    (addressLower ownerLower : String) : List IdentityRow :=
  match identities.find? (fun i => i.address == addressLower) with
  | some _ =>
      identities.map (fun i =>
        if i.address == addressLower
        then { i with controller := some ownerLower } else i)
  | none => identities ++ [⟨addressLower, some ownerLower⟩]

/-- The delegate upsert of `handleDelegateChanged`: update `validTo`
of the `(identity, delegateType, delegateAddress)` row if present,
else insert a fresh row with the next generated id. -/
def upsertDelegate (delegates : List DelegateRow) (nextId : Nat)
    (addressLower delegateType delegateLower : String) (validTo : Nat) :
    List DelegateRow × Nat :=
  match delegates.find? (fun d =>
      d.identityAddress == addressLower &&
        d.delegateType == delegateType &&
        d.delegateAddress == delegateLower) with
  | some existing =>
      (delegates.map (fun d =>
        if d.id == existing.id then { d with validTo := validTo } else d),
       nextId)
  | none =>
      (delegates ++
        [⟨nextId, addressLower, delegateType, delegateLower, validTo⟩],
       nextId + 1)

/-- The attribute upsert of `handleAttributeChanged`: update value and
`validTo` of the `(identity, name)` row if present, else insert. -/
def upsertAttribute (attributes : List AttributeRow) (nextId : Nat)
    (addressLower name value : String) (validTo : Nat) :
    List AttributeRow × Nat :=
  match attributes.find? (fun a =>
      a.identityAddress == addressLower && a.name == name) with
  | some existing =>
      (attributes.map (fun a =>
        if a.id == existing.id
        then { a with value := value, validTo := validTo } else a),
       nextId)
  | none =>
      (attributes ++ [⟨nextId, addressLower, name, value, validTo⟩],
       nextId + 1)

/-- `handleOwnerChanged`: save the event row, then upsert the identity
projection with `controller := owner.toLowerCase()`. -/
def handleOwnerChanged (db : Db) (identity owner : String)
    (previousChange : Nat) (transactionHash : String)
    (blockNumber : Nat) : Db :=
  let db := insertEvent db transactionHash blockNumber
    (.ownerArgs identity owner previousChange)
  { db with
    identities :=
      upsertController db.identities (lowerStr identity) (lowerStr owner) }

/-- `handleDelegateChanged`: save the event row, ensure the identity
row, then upsert the delegate row. -/
def handleDelegateChanged (db : Db) (identity delegateType delegate : String)
    (validTo previousChange : Nat) (transactionHash : String)
    (blockNumber : Nat) : Db :=
  let db := insertEvent db transactionHash blockNumber
    (.delegArgs identity delegateType delegate validTo previousChange)
  let addr := lowerStr identity
  let db := { db with identities := ensureIdentity db.identities addr }
  let res := upsertDelegate db.delegates db.nextDelegateId
    addr delegateType (lowerStr delegate) validTo
  { db with delegates := res.1, nextDelegateId := res.2 }

/-- `handleAttributeChanged`: save the event row, ensure the identity
row, then upsert the attribute row. -/
def handleAttributeChanged (db : Db) (identity name value : String)
    (validTo previousChange : Nat) (transactionHash : String)
    (blockNumber : Nat) : Db :=
  let db := insertEvent db transactionHash blockNumber
    (.attrArgs identity name value validTo previousChange)
  let addr := lowerStr identity
  let db := { db with identities := ensureIdentity db.identities addr }
  let res := upsertAttribute db.attributes db.nextAttributeId
    addr name value validTo
  { db with attributes := res.1, nextAttributeId := res.2 }

/-- The single ingestion entry point: both the live listeners and
`syncFromBlock` route each event through the matching handler. -/
def apply (db : Db) : IngestEvent → Db
  | .ownerChanged i o p tx b => handleOwnerChanged db i o p tx b
  | .delegateChanged i dt d v p tx b =>
      handleDelegateChanged db i dt d v p tx b
  | .attributeChanged i n val v p tx b =>
      handleAttributeChanged db i n val v p tx b

/-- The three projection tables of a store (the derived state the
spec calls "projections"). -/
def projections (db : Db) :
    List IdentityRow × List DelegateRow × List AttributeRow :=
  (db.identities, db.delegates, db.attributes)

/-! ## `credential.service.ts`: the verifier -/

/-- `JSON.stringify` of a string (escaping of exotic characters is not
modelled; the canonical payloads at issue are plain identifiers). -/
def jstr (s : String) : String := "\"" ++ s ++ "\""

def jarr (xs : List String) : String :=
  "[" ++ String.intercalate "," xs ++ "]"

/-- The canonical signing payload reconstructed by `verify` (and built
identically by `issue`): fixed field set and order
`@context, type, issuer, issuanceDate, expirationDate,
credentialSubject{id, ...claims}`; an `undefined` expiration date is
omitted by `JSON.stringify`. -/
def canonicalMessage (c : CredentialRec) : String :=
  let context := jarr ((["https://www.w3.org/2018/credentials/v1",
    "https://w3id.org/security/suites/secp256k1-2019/v1"] :
      List String).map jstr)
  "\x7b" ++ jstr "@context" ++ ":" ++ context ++
    "," ++ jstr "type" ++ ":" ++ jarr (c.ctype.map jstr) ++
    "," ++ jstr "issuer" ++ ":" ++ jstr c.issuer ++
    "," ++ jstr "issuanceDate" ++ ":" ++ jstr (toString c.issuanceDate) ++
    (match c.expirationDate with
     | some e => "," ++ jstr "expirationDate" ++ ":" ++ jstr (toString e)
     | none => "") ++
    "," ++ jstr "credentialSubject" ++ ":" ++
      ("\x7b" ++ jstr "id" ++ ":" ++ jstr c.subject ++
        String.join (c.claims.map (fun p =>
          "," ++ jstr p.1 ++ ":" ++ jstr p.2)) ++ "\x7d") ++
    "\x7d"

/-- The verifier's environment: `ethers.verifyMessage` as an abstract
recovery oracle (`none` models the throw on a malformed signature) and
the ledger adapter, `none` when historical resolution is unavailable
(the `catch` branch of the time-based check). -/
structure VerifyEnv : Type where
  recover : String → String → Option String
  ledger : Option Chain

/-- The four check booleans of the verification result. -/
structure VerifyChecks : Type where
  signature : Bool
  signerValidAtIssuance : Bool
  notExpired : Bool
  notRevoked : Bool
deriving DecidableEq, Repr

/-- The `details` block of the verification result. -/
structure VerifyDetails : Type where
  recoveredAddress : String
  issuerDid : String
  issuanceDate : Nat
  ownerAtIssuance : String
  wasValidSigner : Bool
deriving DecidableEq, Repr

/-- The full result of `verify`: `hasCredential` models whether the
`credential` field is populated (`valid ? toVerifiableCredential(c) :
undefined`). -/
structure VerifyResult : Type where
  valid : Bool
  checks : VerifyChecks
  hasCredential : Bool
  error : Option String
  details : Option VerifyDetails
deriving DecidableEq, Repr

/-- `credentialId.replace('urn:uuid:', '')` (the prefix form the
service itself mints). -/
def stripUrnUuid (credentialId : String) : String :=
  if startsWithL "urn:uuid:".data credentialId.data then
    ⟨credentialId.data.drop "urn:uuid:".length⟩
  else credentialId

/-- The `recoveredAddress` variable of `verify`: initialised to the
empty string, set by a successful `ethers.verifyMessage`. -/
def recoveredAddressOf (env : VerifyEnv) (c : CredentialRec) : String :=
  match env.recover (canonicalMessage c) c.proofValue with
  | some r => r
  | none => ""

/-- `credential.issuer.split(':').pop()`. -/
def issuerAddressOf (c : CredentialRec) : String :=
  ⟨(splitOnChar ':' c.issuer.data).getLastD []⟩

/-- `verify(credentialId)`; `now` is the `new Date()` wall clock.  An
unknown credential returns the all-false check breakdown with an
error.  When the time-based check throws (ledger unavailable), the
source falls back to `signerValidAtIssuance = signatureValid`. -/
def verify (db : Db) (env : VerifyEnv) (credentialId : String)
    (now : Nat) : VerifyResult :=
  let uuid := stripUrnUuid credentialId
  match db.credentials.find? (fun c => c.id == uuid) with
  | none =>
      { valid := false
        checks := ⟨false, false, false, false⟩
        hasCredential := false
        error := some "Credential not found"
        details := none }
  | some c =>
      let notRevoked := c.status = CredStatus.active
      let notExpired :=
        match c.expirationDate with
        | some e => now < e
        | none => true
      let recoveredAddress := recoveredAddressOf env c
      let signatureValid :=
        match env.recover (canonicalMessage c) c.proofValue with
        | some r => lowerStr r == lowerStr (issuerAddressOf c)
        | none => false
      let (ownerAtIssuance, signerValidAtIssuance) :=
        if recoveredAddress ≠ "" then
          match env.ledger with
          | some chain =>
              (getOwnerAtTime db chain c.issuer c.issuanceDate,
               wasValidSignerAtTime db chain c.issuer recoveredAddress
                 c.issuanceDate)
          | none => ("", signatureValid)
        else ("", false)
      let valid :=
        signatureValid && signerValidAtIssuance && notExpired && notRevoked
      { valid := valid
        checks := ⟨signatureValid, signerValidAtIssuance, notExpired,
          notRevoked⟩
        hasCredential := valid
        error := none
        details := some ⟨recoveredAddress, c.issuer, c.issuanceDate,
          ownerAtIssuance, signerValidAtIssuance⟩ }

/-! ## Spec-side definitions

These follow the specification's own words (§3, §4.3, §4.5) and exist
to be *compared* with the source-derived definitions above: the
reconstructed state must be the left-to-right fold of exactly the
events of the identity with position at most the target, owner seeded
with the identity itself, delegates keyed by the *pair*
`(delegateType, delegateAddress)` and attributes by `name`, latest
event per key winning. -/

/-- The state produced by the spec's replay: owner a plain address
(seeded with the identity itself), plus the per-key latest delegates
and attributes. -/
structure SpecState : Type where
  owner : String
  delegates : List DelegateView
  attributes : List AttributeView
deriving DecidableEq, Repr

/-- The spec's left-to-right fold, with explicit accumulator maps
(delegates keyed by the pair, attributes by name). -/
def specReplayRaw :
    List EventRec → String → List ((String × String) × DelegateView) →
      List (String × AttributeView) →
      String × List ((String × String) × DelegateView) ×
        List (String × AttributeView)
  | [], owner, dm, am => (owner, dm, am)
  | e :: rest, owner, dm, am =>
    match e.args with
    | .ownerArgs _ o _ => specReplayRaw rest (lowerStr o) dm am
    | .delegArgs _ dt d v _ =>
        specReplayRaw rest owner
          (mapSet (dt, lowerStr d) ⟨dt, lowerStr d, v⟩ dm) am
    | .attrArgs _ n val v _ =>
        specReplayRaw rest owner dm (mapSet n ⟨n, val, v⟩ am)

/-- The ordered subsequence of the event log holding exactly the
events of the identity with position at most `maxBlock` (the log in
position order, then the spec's selection). -/
def specEventsFor (db : Db) (address : String) (maxBlock : Nat) :
    List EventRec :=
  (sortBy ascLe db.events).filter
    (fun e => lowerStr e.identity == lowerStr address &&
      e.blockNumber ≤ maxBlock)

/-- `stateAt(identity, position)` as the spec words it: replay the
identity's events up to the position, owner seeded with the identity
itself. -/
def specStateAt (db : Db) (did : String) (maxBlock : Nat) : SpecState :=
  let address := extractAddress did
  let (owner, dm, am) :=
    specReplayRaw (specEventsFor db address maxBlock) address [] []
  ⟨owner, dm.map Prod.snd, am.map Prod.snd⟩

/-- The spec's *current*-authority check (§4.5 fallback wording): the
signer equals the issuer's current owner, or is a currently valid
delegate of the issuer (`validTo > now`), read from the projections. -/
def specCurrentAuthority (db : Db) (did signer : String) (now : Nat) :
    Bool :=
  let address := extractAddress did
  let s := lowerStr signer
  (getOwner db did).owner == s ||
    (delegatesOf db address).any
      (fun d => d.delegateAddress == s && now < d.validTo)

/-! ## Well-formedness predicates used as hypotheses

The event log is an append-only table: generated ids strictly increase
with insertion order and block numbers never decrease (`StoreOrdered`).
Delegate types and the lowercased delegate addresses contain no `':'`
(Ethereum addresses are hex strings; this is what makes the source's
`delegateType + ":" + delegate` key reversible). -/

/-- The append-only order of the event table: block numbers never
decrease and generated ids strictly increase. -/
def evOrd (a b : EventRec) : Prop :=
  a.blockNumber ≤ b.blockNumber ∧ a.id < b.id

instance : IsTrans EventRec evOrd :=
  ⟨fun _ _ _ h1 h2 => ⟨Nat.le_trans h1.1 h2.1, Nat.lt_trans h1.2 h2.2⟩⟩

instance : DecidableRel evOrd := fun a b => by
  unfold evOrd; infer_instance

abbrev StoreOrdered (db : Db) : Prop :=
  db.events.Chain' evOrd

/-- No `':'` in the string (decidable, for concrete witnesses). -/
def colonFree (s : String) : Bool :=
  !(s.data.contains ':')

/-- Every `DIDDelegateChanged` argument bag in the list has a
colon-free delegate type and a colon-free lowercased delegate
address. -/
def delegEventsClean (events : List EventRec) : Bool :=
  events.all (fun e =>
    match e.args with
    | .delegArgs _ dt d _ _ => colonFree dt && colonFree (lowerStr d)
    | _ => true)

/-! ## Concrete fixtures for witnesses and counterexamples -/

/-- A chain whose block `i` has timestamp `1000 * i`. -/
def chainLinear : Chain := ⟨2, fun i => 1000 * i⟩

/-- A chain with blocks `0, 1` at timestamps `0, 3000`: no block near
`1500`. -/
def chainGap : Chain := ⟨1, fun i => 3000 * i⟩

/-- A chain with blocks `0..3` at timestamps `0, 1000, 1500, 3000`
(block 2 sits exactly at `1500`). -/
def chainScen : Chain :=
  ⟨3, fun i => [0, 1000, 1500, 3000].getD i 3000⟩

/-- An empty store. -/
def db0 : Db := ⟨[], 0, [], [], 0, [], 0, []⟩

/-- A store holding a single delegate grant
`DelegateChanged(0xissuer, "sigAuth", 0xdel, validTo = 2000)` recorded
at block 1. -/
def dbDeleg : Db :=
  { db0 with
    events := [⟨0, "0xtx", 1, .delegArgs "0xissuer" "sigAuth" "0xdel" 2000 0⟩]
    nextEventId := 1 }

/-- A credential issued by `did:ethr:0xissuer` at `t = 1500`, active,
no expiration. -/
def credA : CredentialRec :=
  ⟨"cred-a", "did:ethr:0xissuer", "did:ethr:0xsubj", ["VerifiableCredential"],
    [], 1500, none, CredStatus.active, "0xsig"⟩

/-- The same credential issued at `t = 2500`. -/
def credB : CredentialRec :=
  { credA with id := "cred-b", issuanceDate := 2500 }

/-- `dbDeleg` with the two scenario credentials and a current-state
identity projection whose controller is *not* the issuer (ownership
since transferred away). -/
def dbScen : Db :=
  { dbDeleg with
    identities := [⟨"0xissuer", some "0xother"⟩]
    credentials := [credA, credB] }

/-- A recovery oracle that always recovers `0xissuer` (the signer is
the issuer key itself). -/
def recoverIssuer : String → String → Option String :=
  fun _ _ => some "0xissuer"

/-- A recovery oracle that always recovers the delegate `0xdel`. -/
def recoverDel : String → String → Option String :=
  fun _ _ => some "0xdel"

/-- Verifier environment with the ledger unavailable. -/
def envDown : VerifyEnv := ⟨recoverIssuer, none⟩

/-- Verifier environment with the scenario chain available and the
delegate as recovered signer. -/
def envScen : VerifyEnv := ⟨recoverDel, some chainScen⟩

/-- Generated-primary-key freshness: every stored projection row's id
is below the next id the store will generate (always true of a store
produced by the ORM, whose `id` columns are auto-increment). -/
def idsFresh (db : Db) : Bool :=
  db.delegates.all (fun d => d.id < db.nextDelegateId) &&
    db.attributes.all (fun a => a.id < db.nextAttributeId)

/-- The Block-Time Index precondition: block timestamps are
non-decreasing in position over the chain's range. -/
def tsMonotone (c : Chain) : Prop :=
  ∀ i j, i ≤ j → j ≤ c.headBlock →
    c.blockTimestamp i ≤ c.blockTimestamp j

/-- What `getBlockByTimestamp` actually computes: the least position
whose timestamp is at or *after* the target time, clamped to the head
position (so a timestamp before genesis yields position `0`, and one
after the head yields the head position). -/
def atOrAfterSpec (c : Chain) (t : Nat) : Prop :=
  getBlockByTimestamp c t ≤ c.headBlock ∧
    (∀ i, i < getBlockByTimestamp c t → c.blockTimestamp i < t) ∧
    (getBlockByTimestamp c t = c.headBlock ∨
      t ≤ c.blockTimestamp (getBlockByTimestamp c t))

/-- The entry translation from the spec's pair-keyed delegate map to
the source's string-keyed one. -/
def entStr (p : (String × String) × DelegateView) :
    String × DelegateView :=
  (p.1.1 ++ ":" ++ p.1.2, p.2)

/-- The entry translation from the spec's pair-keyed delegate map to
the `key → validTo` map built inside `wasValidSignerAtBlock`. -/
def entNat (p : (String × String) × DelegateView) : String × Nat :=
  (p.1.1 ++ ":" ++ p.1.2, p.2.validTo)

/-- The delegate-map component of the spec's fold in isolation: only
`DIDDelegateChanged` argument bags touch it. -/
def dmOnly :
    List EventRec → List ((String × String) × DelegateView) →
      List ((String × String) × DelegateView)
  | [], dm => dm
  | e :: rest, dm =>
    match e.args with
    | .delegArgs _ dt d v _ =>
        dmOnly rest (mapSet (dt, lowerStr d) ⟨dt, lowerStr d, v⟩ dm)
    | _ => dmOnly rest dm

/-! # Theorems -/

/-! ## Generic list and sorting lemmas -/

theorem insertBy_eq_cons {α : Type} {le : α → α → Bool} {a : α}
    {l : List α} (h : ∀ b ∈ l.head?, le a b = true) :
    insertBy le a l = a :: l := by
  cases l with
  | nil => rfl
  | cons b t =>
      unfold insertBy
      rw [h b rfl]
      simp

theorem sortBy_of_pairwise {α : Type} {le : α → α → Bool} :
    ∀ {l : List α}, l.Pairwise (fun x y => le x y = true) →
      sortBy le l = l
  | [], _ => rfl
  | a :: l, h => by
      obtain ⟨hhead, htail⟩ := List.pairwise_cons.mp h
      rw [sortBy, sortBy_of_pairwise htail]
      refine insertBy_eq_cons fun b hb => ?_
      cases l with
      | nil => simp at hb
      | cons c t =>
          simp only [List.head?_cons, Option.mem_def, Option.some.injEq] at hb
          exact hb ▸ hhead c (List.mem_cons_self c t)

theorem insertBy_eq_append {α : Type} {le : α → α → Bool} {a : α} :
    ∀ {l : List α}, (∀ b ∈ l, le a b = false) →
      insertBy le a l = l ++ [a]
  | [], _ => rfl
  | b :: t, h => by
      unfold insertBy
      rw [h b (List.mem_cons_self b t), insertBy_eq_append
        (fun c hc => h c (List.mem_cons_of_mem _ hc))]
      simp

/-- On an event list in append order, the `ORDER BY blockNumber DESC,
id DESC` sort is exactly the reverse of the list. -/
theorem sortBy_descLe_eq_reverse :
    ∀ {l : List EventRec}, l.Pairwise evOrd →
      sortBy descLe l = l.reverse
  | [], _ => rfl
  | a :: l, h => by
      obtain ⟨hhead, htail⟩ := List.pairwise_cons.mp h
      rw [sortBy, sortBy_descLe_eq_reverse htail, List.reverse_cons]
      refine insertBy_eq_append fun b hb => ?_
      obtain ⟨h1, h2⟩ := hhead b (List.mem_reverse.mp hb)
      simp only [descLe, Bool.or_eq_false_iff, Bool.and_eq_false_iff]
      constructor
      · simp only [decide_eq_false_iff_not, Nat.not_lt]
        exact h1
      · right
        simp only [decide_eq_false_iff_not, Nat.not_le]
        exact h2

/-- On an event list in append order, the `ORDER BY blockNumber ASC,
id ASC` sort does not move anything. -/
theorem sortBy_ascLe_eq_self {l : List EventRec}
    (h : l.Pairwise evOrd) : sortBy ascLe l = l := by
  refine sortBy_of_pairwise (h.imp fun hab => ?_)
  obtain ⟨h1, h2⟩ := hab
  simp only [ascLe, Bool.or_eq_true, Bool.and_eq_true, decide_eq_true_eq,
    beq_iff_eq]
  omega

theorem StoreOrdered.pairwise {db : Db} (h : StoreOrdered db) :
    db.events.Pairwise evOrd :=
  List.chain'_iff_pairwise.mp h

/-! ## C4: the Block-Time Index -/

theorem searchLoop_spec (ts : Nat → Nat) (t : Nat) :
    ∀ (n low high : Nat), high - low = n → low ≤ high →
      (∀ i j, low ≤ i → i ≤ j → j ≤ high → ts i ≤ ts j) →
      low ≤ searchLoop ts t low high ∧ searchLoop ts t low high ≤ high ∧
        (∀ i, low ≤ i → i < searchLoop ts t low high → ts i < t) ∧
        (searchLoop ts t low high = high ∨
          t ≤ ts (searchLoop ts t low high)) := by
  intro n
  induction n using Nat.strong_induction_on with
  | _ n IH =>
      intro low high hn hlh hmono
      rw [searchLoop]
      by_cases hlt : low < high
      · rw [dif_pos hlt]
        set mid := (low + high) / 2 with hmid
        have hmid1 : low ≤ mid := by omega
        have hmid2 : mid < high := by omega
        by_cases hts : ts mid < t
        · rw [if_pos hts]
          have hrec := IH (high - (mid + 1)) (by omega) (mid + 1) high rfl
            (by omega)
            (fun i j h1 h2 h3 => hmono i j (by omega) h2 h3)
          refine ⟨by omega, hrec.2.1, ?_, hrec.2.2.2⟩
          intro i h1 h2
          by_cases hi : i ≤ mid
          · exact Nat.lt_of_le_of_lt
              (hmono i mid h1 hi (by omega)) hts
          · exact hrec.2.2.1 i (by omega) h2
        · rw [if_neg hts]
          have hrec := IH (mid - low) (by omega) low mid rfl (by omega)
            (fun i j h1 h2 h3 => hmono i j h1 h2 (by omega))
          refine ⟨hrec.1, by omega, hrec.2.2.1, ?_⟩
          rcases hrec.2.2.2 with h | h
          · right
            rw [h]
            omega
          · right
            exact h
      · rw [dif_neg hlt]
        have : low = high := by omega
        exact ⟨Nat.le_refl _, by omega, fun i h1 h2 => by omega,
          Or.inl this⟩

/-- C4, corrected statement: under non-decreasing block timestamps,
`getBlockByTimestamp` returns the least position whose timestamp is at
or *after* the target (clamped to the head position); in particular a
timestamp before genesis yields position 0 and one after the head
yields the head position. -/
theorem getBlockByTimestamp_atOrAfter (c : Chain) (t : Nat)
    (h : tsMonotone c) : atOrAfterSpec c t := by
  have hs := searchLoop_spec c.blockTimestamp t c.headBlock 0 c.headBlock
    rfl (Nat.zero_le _) (fun i j h1 h2 h3 => h i j h2 h3)
  exact ⟨hs.2.1, fun i h2 => hs.2.2.1 i (Nat.zero_le _) h2, hs.2.2.2⟩

/-- Witness for the corrected C4 statement on the concrete chain with
timestamps `0, 1000, 2000`. -/
theorem getBlockByTimestamp_atOrAfter_witness :
    tsMonotone chainLinear ∧ atOrAfterSpec chainLinear 1500 := by
  have hm : tsMonotone chainLinear := by
    intro i j h1 h2
    simp only [chainLinear]
    omega
  exact ⟨hm, getBlockByTimestamp_atOrAfter chainLinear 1500 hm⟩

/-- C4, counterexample to the claim as stated: on the chain with
timestamps `0, 1000, 2000` (non-decreasing, checked on every position)
the lookup for `t = 1500` returns position 2, whose timestamp 2000 is
*after* `t`, although position 1 (timestamp 1000) lies at or before
`t`. -/
theorem getBlockByTimestamp_not_atOrBefore :
    getBlockByTimestamp chainLinear 1500 = 2 ∧
      ¬ chainLinear.blockTimestamp (getBlockByTimestamp chainLinear 1500)
          ≤ 1500 ∧
      chainLinear.blockTimestamp 1 ≤ 1500 ∧ 1 ≤ chainLinear.headBlock ∧
      chainLinear.blockTimestamp 0 ≤ chainLinear.blockTimestamp 1 ∧
      chainLinear.blockTimestamp 1 ≤ chainLinear.blockTimestamp 2 := by
  have h2 : getBlockByTimestamp chainLinear 1500 = 2 := by
    simp [getBlockByTimestamp, searchLoop, chainLinear]
  exact ⟨h2, by rw [h2]; norm_num [chainLinear], by norm_num [chainLinear],
    by norm_num [chainLinear], by norm_num [chainLinear],
    by norm_num [chainLinear]⟩

/-! ## C6: ingestion idempotence -/

theorem insertEvent_identities (db : Db) (tx : String) (b : Nat)
    (a : EvArgs) : (insertEvent db tx b a).identities = db.identities :=
  rfl

theorem insertEvent_delegates (db : Db) (tx : String) (b : Nat)
    (a : EvArgs) : (insertEvent db tx b a).delegates = db.delegates :=
  rfl

theorem insertEvent_attributes (db : Db) (tx : String) (b : Nat)
    (a : EvArgs) : (insertEvent db tx b a).attributes = db.attributes :=
  rfl

/-- Pointwise-identity maps leave a list unchanged. -/
theorem map_eq_self_of {α : Type} (f : α → α) :
    ∀ {l : List α}, (∀ a ∈ l, f a = a) → l.map f = l := by
  intro l h
  induction l with
  | nil => rfl
  | cons a t ih =>
      simp only [List.map_cons, h a (List.mem_cons_self a t),
        ih fun b hb => h b (List.mem_cons_of_mem _ hb)]

/-- The identity upsert of `handleOwnerChanged` is idempotent. -/
theorem upsertController_idem (l : List IdentityRow) (addr o : String) :
    upsertController (upsertController l addr o) addr o =
      upsertController l addr o := by
  cases hfind : l.find? (fun i => i.address == addr) with
  | some x =>
      have hcomp : ((fun i : IdentityRow => i.address == addr) ∘ fun i =>
          if i.address == addr
          then { i with controller := some o } else i) =
          fun i : IdentityRow => i.address == addr := by
        funext i
        by_cases h : i.address = addr
        · simp [h]
        · simp [h]
      have hfind2 : (l.map (fun i =>
          if i.address == addr
          then ({ i with controller := some o } : IdentityRow) else i)).find?
          (fun i => i.address == addr) =
          some (if x.address == addr
            then { x with controller := some o } else x) := by
        rw [List.find?_map, hcomp, hfind, Option.map_some']
      simp only [upsertController, hfind, hfind2, List.map_map]
      refine congrArg (fun g => List.map g l) (funext fun i => ?_)
      simp only [Function.comp]
      by_cases h : i.address = addr
      · simp [h]
      · simp [h]
  | none =>
      have hfind2 : ((l ++ ([⟨addr, some o⟩] : List IdentityRow)).find?
          (fun i => i.address == addr)) = some ⟨addr, some o⟩ := by
        rw [List.find?_append, hfind, Option.none_or]
        simp
      have h1 : ∀ i ∈ l,
          (if i.address == addr
           then ({ i with controller := some o } : IdentityRow)
           else i) = i := by
        intro i hi
        have := List.find?_eq_none.mp hfind i hi
        simp only [Bool.not_eq_true] at this
        rw [if_neg (by simp [this])]
      simp only [upsertController, hfind, hfind2, List.map_append,
        map_eq_self_of _ h1]
      simp

/-- `ensureIdentity` is idempotent. -/
theorem ensureIdentity_idem (l : List IdentityRow) (addr : String) :
    ensureIdentity (ensureIdentity l addr) addr = ensureIdentity l addr := by
  cases hfind : l.find? (fun i => i.address == addr) with
  | some x => simp only [ensureIdentity, hfind]
  | none =>
      have hfind2 : ((l ++ ([⟨addr, none⟩] : List IdentityRow)).find?
          (fun i => i.address == addr)) = some ⟨addr, none⟩ := by
        rw [List.find?_append, hfind, Option.none_or]
        simp
      simp only [ensureIdentity, hfind, hfind2]

/-- The delegate upsert is idempotent when the store's generated ids
are fresh. -/
theorem upsertDelegate_idem (l : List DelegateRow) (nextId : Nat)
    (addr dt dl : String) (v : Nat)
    (hfresh : ∀ d ∈ l, d.id < nextId) :
    upsertDelegate (upsertDelegate l nextId addr dt dl v).1
        (upsertDelegate l nextId addr dt dl v).2 addr dt dl v =
      upsertDelegate l nextId addr dt dl v := by
  cases hfind : l.find? (fun d =>
      d.identityAddress == addr && d.delegateType == dt &&
        d.delegateAddress == dl) with
  | some ex =>
      have hcomp : ((fun d : DelegateRow =>
          d.identityAddress == addr && d.delegateType == dt &&
            d.delegateAddress == dl) ∘ fun d =>
          if d.id == ex.id then { d with validTo := v } else d) =
          fun d : DelegateRow =>
            d.identityAddress == addr && d.delegateType == dt &&
              d.delegateAddress == dl := by
        funext d
        simp only [Function.comp]
        by_cases h : d.id = ex.id
        · simp [h]
        · simp [h]
      have hfind2 : (l.map (fun d =>
          if d.id == ex.id
          then ({ d with validTo := v } : DelegateRow) else d)).find?
          (fun d => d.identityAddress == addr && d.delegateType == dt &&
            d.delegateAddress == dl) =
          some ({ ex with validTo := v }) := by
        rw [List.find?_map, hcomp, hfind, Option.map_some']
        simp
      simp only [upsertDelegate, hfind, hfind2, List.map_map]
      refine congrArg (fun m => (m, nextId))
        (congrArg (fun g => List.map g l) (funext fun d => ?_))
      simp only [Function.comp]
      by_cases h : d.id = ex.id
      · simp [h]
      · simp [h]
  | none =>
      have hfind2 : ((l ++ ([⟨nextId, addr, dt, dl, v⟩] : List DelegateRow)).find?
          (fun d => d.identityAddress == addr && d.delegateType == dt &&
            d.delegateAddress == dl)) =
          some ⟨nextId, addr, dt, dl, v⟩ := by
        rw [List.find?_append, hfind, Option.none_or]
        simp
      have h1 : ∀ d ∈ l,
          (if d.id == nextId
           then ({ d with validTo := v } : DelegateRow) else d) = d := by
        intro d hd
        rw [if_neg (by simp [Nat.ne_of_lt (hfresh d hd)])]
      simp only [upsertDelegate, hfind, hfind2, List.map_append,
        map_eq_self_of _ h1]
      simp

/-- The attribute upsert is idempotent when the store's generated ids
are fresh. -/
theorem upsertAttribute_idem (l : List AttributeRow) (nextId : Nat)
    (addr n val : String) (v : Nat)
    (hfresh : ∀ a ∈ l, a.id < nextId) :
    upsertAttribute (upsertAttribute l nextId addr n val v).1
        (upsertAttribute l nextId addr n val v).2 addr n val v =
      upsertAttribute l nextId addr n val v := by
  cases hfind : l.find? (fun a =>
      a.identityAddress == addr && a.name == n) with
  | some ex =>
      have hcomp : ((fun a : AttributeRow =>
          a.identityAddress == addr && a.name == n) ∘ fun a =>
          if a.id == ex.id then { a with value := val, validTo := v }
          else a) =
          fun a : AttributeRow =>
            a.identityAddress == addr && a.name == n := by
        funext a
        simp only [Function.comp]
        by_cases h : a.id = ex.id
        · simp [h]
        · simp [h]
      have hfind2 : (l.map (fun a =>
          if a.id == ex.id
          then ({ a with value := val, validTo := v } : AttributeRow)
          else a)).find?
          (fun a => a.identityAddress == addr && a.name == n) =
          some ({ ex with value := val, validTo := v }) := by
        rw [List.find?_map, hcomp, hfind, Option.map_some']
        simp
      simp only [upsertAttribute, hfind, hfind2, List.map_map]
      refine congrArg (fun m => (m, nextId))
        (congrArg (fun g => List.map g l) (funext fun a => ?_))
      simp only [Function.comp]
      by_cases h : a.id = ex.id
      · simp [h]
      · simp [h]
  | none =>
      have hfind2 : ((l ++ ([⟨nextId, addr, n, val, v⟩] : List AttributeRow)).find?
          (fun a => a.identityAddress == addr && a.name == n)) =
          some ⟨nextId, addr, n, val, v⟩ := by
        rw [List.find?_append, hfind, Option.none_or]
        simp
      have h1 : ∀ a ∈ l,
          (if a.id == nextId
           then ({ a with value := val, validTo := v } : AttributeRow)
           else a) = a := by
        intro a ha
        rw [if_neg (by simp [Nat.ne_of_lt (hfresh a ha)])]
      simp only [upsertAttribute, hfind, hfind2, List.map_append,
        map_eq_self_of _ h1]
      simp

/-- C6, corrected statement: re-applying the same event leaves the
three *projection* tables unchanged (the projection updates are
last-write-wins upserts keyed by identity address, delegate key and
attribute name), although the event log itself gains a duplicate row.
-/
theorem apply_projections_idem (db : Db) (e : IngestEvent)
    (hfresh : idsFresh db = true) :
    projections (apply (apply db e) e) = projections (apply db e) := by
  obtain ⟨hd, ha⟩ := Bool.and_eq_true_iff.mp hfresh
  have hdel := fun d hmem =>
    of_decide_eq_true (List.all_eq_true.mp hd d hmem)
  have hattr := fun a hmem =>
    of_decide_eq_true (List.all_eq_true.mp ha a hmem)
  cases e with
  | ownerChanged i o p tx b =>
      simp [apply, handleOwnerChanged, insertEvent, projections,
        upsertController_idem]
  | delegateChanged i dt d v p tx b =>
      have hidem := upsertDelegate_idem db.delegates db.nextDelegateId
        (lowerStr i) dt (lowerStr d) v hdel
      simp [apply, handleDelegateChanged, insertEvent, projections,
        ensureIdentity_idem, hidem]
  | attributeChanged i n val v p tx b =>
      have hidem := upsertAttribute_idem db.attributes db.nextAttributeId
        (lowerStr i) n val v hattr
      simp [apply, handleAttributeChanged, insertEvent, projections,
        ensureIdentity_idem, hidem]

/-- C6, counterexample to the claim as stated: re-delivering the same
`DelegateChanged` event to an empty store leaves *two* rows in the
event log, not one — the `Event` table has a generated primary key and
no natural-key constraint, so the log is not left identical. -/
theorem apply_twice_duplicates_event_log :
    (apply (apply db0 (.delegateChanged "0xa" "sigAuth" "0xd" 2000 0
        "0xtx" 5)) (.delegateChanged "0xa" "sigAuth" "0xd" 2000 0
        "0xtx" 5)).events.length = 2 ∧
      (apply db0 (.delegateChanged "0xa" "sigAuth" "0xd" 2000 0
        "0xtx" 5)).events.length = 1 := by
  constructor
  · rfl
  · rfl

/-- Witness for the corrected C6 statement at a concrete store and
event. -/
theorem apply_projections_idem_witness :
    idsFresh dbDeleg = true ∧
      projections (apply (apply dbDeleg (.ownerChanged "0xa" "0xb" 0
        "0xtx" 5)) (.ownerChanged "0xa" "0xb" 0 "0xtx" 5)) =
        projections (apply dbDeleg (.ownerChanged "0xa" "0xb" 0
          "0xtx" 5)) :=
  ⟨by decide, apply_projections_idem dbDeleg _ (by decide)⟩

/-! ## C9 and C3: the document builder -/

theorem enumFrom_map_fst {α β : Type} (g : Nat → β) :
    ∀ (i : Nat) (l : List α),
      (List.enumFrom i l).map (fun p => g p.1) =
        (List.range' i l.length).map g
  | _, [] => rfl
  | i, a :: l => by
      have hr := List.range'_succ i l.length 1
      simp only [List.enumFrom, List.map_cons, List.length_cons, hr]
      rw [enumFrom_map_fst g (i + 1) l]

theorem enum_map_fst {α β : Type} (g : Nat → β) (l : List α) :
    l.enum.map (fun p => g p.1) = (List.range l.length).map g := by
  rw [List.range_eq_range']
  exact enumFrom_map_fst g 0 l

/-- C9, corrected statement: the builder is a pure function of its
four inputs *and* the wall clock `now` (which selects the still-valid
entries), and its verification methods appear in the fixed order the
claim describes — controller first, then the valid delegates in
projection order, then the `did/pub/...` attribute keys — with the
positional suffixes `#delegate-N` / `#key-N` given by the position in
the corresponding filtered list. -/
theorem buildDidDocument_method_order (address : String)
    (controller : Option String) (delegates : List DelegateView)
    (attributes : List AttributeView) (now : Nat) :
    (buildDidDocument address controller delegates attributes
        now).verificationMethod.map (fun m => m.id) =
      ("did:ethr:" ++ address ++ "#controller") ::
        ((List.range (delegates.filter
              (fun d => now < d.validTo)).length).map
            (fun i => "did:ethr:" ++ address ++ "#delegate-" ++
              toString i) ++
          (List.range (((attributes.filter
              (fun a => now < a.validTo)).filter
              (fun a => startsWithL "did/pub/".data
                a.name.data)).length)).map
            (fun i => "did:ethr:" ++ address ++ "#key-" ++
              toString i)) := by
  simp only [buildDidDocument, List.map_cons, List.map_append,
    List.map_map]
  refine congrArg _ (congrArg₂ _ ?_ ?_)
  · exact enum_map_fst
      (fun i => "did:ethr:" ++ address ++ "#delegate-" ++ toString i) _
  · exact enum_map_fst
      (fun i => "did:ethr:" ++ address ++ "#key-" ++ toString i) _

/-- C9, counterexample to the claim as stated: the builder is *not* a
pure function of its four-component input state — the same state built
at wall-clock seconds 1000 and 2000 yields different documents,
because the validity filter inside the builder reads the clock. -/
theorem buildDidDocument_not_pure_in_state :
    buildDidDocument "0xa" none [⟨"sigAuth", "0xd", 1500⟩] [] 1000 ≠
      buildDidDocument "0xa" none [⟨"sigAuth", "0xd", 1500⟩] [] 2000 := by
  decide

/-- Re-filtering already-filtered inputs changes nothing: the builder
applied to the entries valid at `now` equals the builder applied to
the raw entries. -/
theorem buildDidDocument_filter_absorb (address : String)
    (controller : Option String) (delegates : List DelegateView)
    (attributes : List AttributeView) (now : Nat) :
    buildDidDocument address controller
        (delegates.filter (fun d => now < d.validTo))
        (attributes.filter (fun a => now < a.validTo)) now =
      buildDidDocument address controller delegates attributes now := by
  simp only [buildDidDocument, List.filter_filter, Bool.and_self]

/-- C3, corrected statement: the delegates and attributes included in
a historical document are exactly the reconstructed entries with
`validTo` strictly greater than the *current wall-clock time* at the
moment the document is built; the filter sits inside
`buildDidDocument`, not with the caller, and the resolved position's
timestamp plays no role in it. -/
theorem resolveAtBlock_filters_by_wall_clock (db : Db) (did : String)
    (blockNumber now : Nat) :
    resolveAtBlock db did blockNumber now =
      buildDidDocument (extractAddress did)
        (resolveAtBlockState db did blockNumber).owner
        ((resolveAtBlockState db did blockNumber).delegates.filter
          (fun d => now < d.validTo))
        ((resolveAtBlockState db did blockNumber).attributes.filter
          (fun a => now < a.validTo)) now := by
  rw [buildDidDocument_filter_absorb]
  rfl

/-- C3, counterexample to the claim as stated: a delegate granted with
`validTo = 2000` at block 1 (block timestamp 1000) is valid at the
resolved position's timestamp, yet resolving at block 1 when the wall
clock reads 2000 returns a document with the controller method only —
the builder filtered against the wall clock, not `timestamp(P)`. -/
theorem resolveAtBlock_counter_wall_clock :
    (resolveAtBlockState dbDeleg "did:ethr:0xissuer" 1).delegates =
        [⟨"sigAuth", "0xdel", 2000⟩] ∧
      chainLinear.blockTimestamp 1 < 2000 ∧
      (resolveAtBlock dbDeleg "did:ethr:0xissuer" 1
          2000).verificationMethod.map (fun m => m.id) =
        ["did:ethr:0xissuer#controller"] := by
  refine ⟨by decide, by decide, by decide⟩

/-! ## C8: unknown identities resolve to a minimal document -/

/-- C8: a DID with no stored projection resolves, without any error
path, to the minimal self-owned document with exactly one verification
method — the controller method bound to the identity itself — and no
top-level controller field. -/
theorem resolve_unknown_minimal (db : Db) (did : String) (now : Nat)
    (h : db.identities.find?
      (fun i => i.address == extractAddress did) = none) :
    resolve db did now =
      { context := DID_CONTEXTS
        id := "did:ethr:" ++ extractAddress did
        controller := none
        verificationMethod :=
          [{ id := "did:ethr:" ++ extractAddress did ++ "#controller"
             type := "EcdsaSecp256k1RecoveryMethod2020"
             controller := "did:ethr:" ++ extractAddress did
             blockchainAccountId :=
               some ("eip155:1:" ++ extractAddress did)
             publicKeyBase64 := none
             publicKeyHex := none }]
        authentication :=
          ["did:ethr:" ++ extractAddress did ++ "#controller"]
        assertionMethod :=
          ["did:ethr:" ++ extractAddress did ++ "#controller"]
        service := none } := by
  simp [resolve, h, buildDidDocument]

/-- Witness for C8 at the empty store and a mixed-case identifier. -/
theorem resolve_unknown_minimal_witness :
    db0.identities.find?
        (fun i => i.address == extractAddress "did:ethr:0xNoBody") =
      none ∧
    resolve db0 "did:ethr:0xNoBody" 50 =
      { context := DID_CONTEXTS
        id := "did:ethr:0xnobody"
        controller := none
        verificationMethod :=
          [{ id := "did:ethr:0xnobody#controller"
             type := "EcdsaSecp256k1RecoveryMethod2020"
             controller := "did:ethr:0xnobody"
             blockchainAccountId := some "eip155:1:0xnobody"
             publicKeyBase64 := none
             publicKeyHex := none }]
        authentication := ["did:ethr:0xnobody#controller"]
        assertionMethod := ["did:ethr:0xnobody#controller"]
        service := none } := by
  refine ⟨rfl, ?_⟩
  rw [resolve_unknown_minimal db0 "did:ethr:0xNoBody" 50 rfl]
  decide

/-! ## C7: the verification result -/

/-- C7: for every credential identifier — including an unknown one —
`verify` produces the four check booleans and its overall `valid` flag
is exactly their conjunction. -/
theorem verify_valid_eq_conj (db : Db) (env : VerifyEnv)
    (credentialId : String) (now : Nat) :
    (verify db env credentialId now).valid =
      ((verify db env credentialId now).checks.signature &&
        (verify db env credentialId now).checks.signerValidAtIssuance &&
        (verify db env credentialId now).checks.notExpired &&
        (verify db env credentialId now).checks.notRevoked) := by
  simp only [verify]
  cases hfind : db.credentials.find?
      (fun c => c.id == stripUrnUuid credentialId) with
  | none => rfl
  | some c => rfl

/-! ## C5: the degraded authority check -/

/-- C5, corrected statement: when historical resolution is unavailable
(`ledger = none`, the `catch` branch), the authority check does not
consult any authority data at all — it simply reuses the signature
check's outcome (`false` when recovery failed or returned the empty
string).  Nothing in the returned result distinguishes this degraded
check from a full temporal one. -/
theorem verify_fallback_reuses_signature (db : Db) (env : VerifyEnv)
    (credentialId : String) (now : Nat) (c : CredentialRec)
    (hledger : env.ledger = none)
    (hfind : db.credentials.find?
      (fun x => x.id == stripUrnUuid credentialId) = some c) :
    (verify db env credentialId now).checks.signerValidAtIssuance =
      (decide (recoveredAddressOf env c ≠ "") &&
        (verify db env credentialId now).checks.signature) := by
  simp only [verify]
  rw [hfind]
  simp only [hledger]
  by_cases hr : recoveredAddressOf env c ≠ ""
  · simp [hr]
  · simp [hr]

/-- Witness for the corrected C5 statement on the concrete scenario
store. -/
theorem verify_fallback_reuses_signature_witness :
    envDown.ledger = none ∧
      dbScen.credentials.find?
        (fun x => x.id == stripUrnUuid "cred-a") = some credA ∧
      (verify dbScen envDown "cred-a" 100).checks.signerValidAtIssuance =
        (decide (recoveredAddressOf envDown credA ≠ "") &&
          (verify dbScen envDown "cred-a" 100).checks.signature) :=
  ⟨rfl, by decide,
    verify_fallback_reuses_signature dbScen envDown "cred-a" 100 credA
      rfl (by decide)⟩

/-! ## String splitting and identifier normalization (C10) -/

theorem splitOnChar_ne_nil (c : Char) : ∀ l, splitOnChar c l ≠ []
  | [] => by simp [splitOnChar]
  | a :: rest => by
      cases h : splitOnChar c rest with
      | nil => exact absurd h (splitOnChar_ne_nil c rest)
      | cons hd tl =>
          by_cases hac : a = c
          · simp [splitOnChar, h, hac]
          · simp [splitOnChar, h, hac]

theorem splitOnChar_of_not_mem (c : Char) :
    ∀ {l : List Char}, c ∉ l → splitOnChar c l = [l]
  | [], _ => rfl
  | a :: rest, h => by
      have hr := splitOnChar_of_not_mem c
        (fun hc => h (List.mem_cons_of_mem a hc))
      have hac : ¬ a = c := fun hac => h (by
        rw [hac]
        exact List.mem_cons_self c rest)
      simp only [splitOnChar, hr, if_neg hac]

theorem splitOnChar_append_cons (c : Char) (rest : List Char) :
    ∀ {t : List Char}, c ∉ t →
      splitOnChar c (t ++ c :: rest) = t :: splitOnChar c rest
  | [], _ => by
      cases hs : splitOnChar c rest with
      | nil => exact absurd hs (splitOnChar_ne_nil c rest)
      | cons hd tl => simp [splitOnChar, hs]
  | a :: t, h => by
      have hrec := splitOnChar_append_cons c rest
        (fun hc => h (List.mem_cons_of_mem a hc))
      have hac : ¬ a = c := fun hac => h (by
        rw [hac]
        exact List.mem_cons_self c t)
      simp only [List.cons_append, splitOnChar, List.append_eq, hrec,
        if_neg hac]

theorem splitOnChar_length_two (c : Char) :
    ∀ {l : List Char}, c ∈ l → 2 ≤ (splitOnChar c l).length
  | [], h => absurd h (List.not_mem_nil c)
  | a :: rest, h => by
      cases hs : splitOnChar c rest with
      | nil => exact absurd hs (splitOnChar_ne_nil c rest)
      | cons hd tl =>
          by_cases hac : a = c
          · simp [splitOnChar, hs, hac]
          · have hcrest : c ∈ rest := by
              cases List.mem_cons.mp h with
              | inl he => exact absurd he.symm hac
              | inr hm => exact hm
            have hlen := splitOnChar_length_two c hcrest
            rw [hs] at hlen
            simp only [splitOnChar, hs, if_neg hac, List.length_cons]
              at hlen ⊢
            omega

theorem splitOnChar_getLastD (c : Char) {a : List Char} (h : c ∉ a) :
    ∀ x, (splitOnChar c (x ++ c :: a)).getLastD [] = a
  | [] => by
      have hs := splitOnChar_of_not_mem c h
      simp [splitOnChar, hs]
  | b :: x => by
      have hprev := splitOnChar_getLastD c h x
      cases hs : splitOnChar c (x ++ c :: a) with
      | nil => exact absurd hs (splitOnChar_ne_nil c _)
      | cons hd tl =>
          rw [hs] at hprev
          by_cases hbc : b = c
          · simp only [List.cons_append, splitOnChar, List.append_eq, hs,
              if_pos hbc, List.getLastD_cons] at hprev ⊢
            exact hprev
          · have hlen : 2 ≤ (splitOnChar c (x ++ c :: a)).length :=
              splitOnChar_length_two c (by simp)
            rw [hs] at hlen
            cases tl with
            | nil => simp at hlen
            | cons u v =>
                simp only [List.cons_append, splitOnChar, List.append_eq,
                  hs, if_neg hbc, List.getLastD_cons] at hprev ⊢
                exact hprev

/-- The address part of `did:ethr:<addr>` for a colon-free `<addr>`:
`extractAddress` takes the last segment and lowercases it. -/
theorem extractAddress_did_ethr {s : String} (h : ':' ∉ s.data) :
    extractAddress ("did:ethr:" ++ s) = lowerStr s := by
  unfold extractAddress
  have hdata : ("did:ethr:" ++ s).data =
      "did".data ++ ':' :: ("ethr".data ++ ':' :: s.data) := rfl
  rw [hdata, splitOnChar_append_cons _ _ (by decide),
    splitOnChar_append_cons _ _ (by decide),
    splitOnChar_of_not_mem _ h]
  simp

/-- A bare colon-free identifier is just lowercased. -/
theorem extractAddress_no_colon {s : String} (h : ':' ∉ s.data) :
    extractAddress s = lowerStr s := by
  unfold extractAddress
  rw [splitOnChar_of_not_mem _ h]
  simp

/-- C10: `resolve`, `getOwner`, `getOwnerAtBlock` and
`wasValidSignerAtBlock` normalize the DID by taking the last
colon-separated segment and lowercasing, so the `did:ethr:` form in
any letter case and the bare address in any letter case give identical
results. -/
theorem did_normalization (db : Db) (chain : Chain)
    (s t signer : String) (blockNumber now : Nat)
    (hs : ':' ∉ s.data) (ht : ':' ∉ t.data)
    (hlow : lowerStr s = lowerStr t) :
    resolve db ("did:ethr:" ++ s) now = resolve db t now ∧
      getOwner db ("did:ethr:" ++ s) = getOwner db t ∧
      getOwnerAtBlock db ("did:ethr:" ++ s) blockNumber =
        getOwnerAtBlock db t blockNumber ∧
      wasValidSignerAtBlock db chain ("did:ethr:" ++ s) signer
          blockNumber =
        wasValidSignerAtBlock db chain t signer blockNumber := by
  have hx : extractAddress ("did:ethr:" ++ s) = extractAddress t := by
    rw [extractAddress_did_ethr hs, extractAddress_no_colon ht, hlow]
  refine ⟨?_, ?_, ?_, ?_⟩
  · simp only [resolve, hx]
  · simp only [getOwner, hx]
  · simp only [getOwnerAtBlock, hx]
  · simp only [wasValidSignerAtBlock, getOwnerAtBlock, hx]

/-- Witness for C10 with a mixed-case address against its bare
lowercase form on the scenario store. -/
theorem did_normalization_witness :
    (':' ∉ "0xIssuer".data) ∧ (':' ∉ "0xissuer".data) ∧
      lowerStr "0xIssuer" = lowerStr "0xissuer" ∧
      (resolve dbScen ("did:ethr:" ++ "0xIssuer") 100 =
          resolve dbScen "0xissuer" 100 ∧
        getOwner dbScen ("did:ethr:" ++ "0xIssuer") =
          getOwner dbScen "0xissuer" ∧
        getOwnerAtBlock dbScen ("did:ethr:" ++ "0xIssuer") 1 =
          getOwnerAtBlock dbScen "0xissuer" 1 ∧
        wasValidSignerAtBlock dbScen chainScen
            ("did:ethr:" ++ "0xIssuer") "0xdel" 1 =
          wasValidSignerAtBlock dbScen chainScen "0xissuer" "0xdel" 1) :=
  ⟨by decide, by decide, by decide,
    did_normalization dbScen chainScen "0xIssuer" "0xissuer" "0xdel" 1
      100 (by decide) (by decide) (by decide)⟩

/-! ## C1: historical state is the fold of the identity's events -/

theorem strExt {s t : String} (h : s.data = t.data) : s = t := by
  cases s
  cases t
  exact congrArg String.mk h

theorem colonFree_not_mem {s : String} (h : colonFree s = true) :
    ':' ∉ s.data := by
  simpa [colonFree] using h

theorem strKey_data (t a : String) :
    (t ++ ":" ++ a).data = t.data ++ ':' :: a.data := by
  simp [String.data_append]

/-- The string key `delegateType + ":" + delegate` is reversible when
the delegate address holds no colon: equal keys have equal
components. -/
theorem strKey_inj {t1 a1 t2 a2 : String}
    (h1 : colonFree a1 = true) (h2 : colonFree a2 = true)
    (heq : t1 ++ ":" ++ a1 = t2 ++ ":" ++ a2) : t1 = t2 ∧ a1 = a2 := by
  have hdata : t1.data ++ ':' :: a1.data = t2.data ++ ':' :: a2.data := by
    rw [← strKey_data, ← strKey_data, heq]
  have g1 := splitOnChar_getLastD ':' (colonFree_not_mem h1) t1.data
  have g2 := splitOnChar_getLastD ':' (colonFree_not_mem h2) t2.data
  rw [hdata] at g1
  have ha : a1.data = a2.data := g1.symm.trans g2
  have ha' : a1 = a2 := strExt ha
  rw [ha] at hdata
  have ht : t1.data = t2.data := by
    have := List.append_cancel_right hdata
    exact this
  exact ⟨strExt ht, ha'⟩

theorem mapSet_mem {κ ν : Type} [DecidableEq κ] (k : κ) (v : ν) :
    ∀ (m : List (κ × ν)) (p : κ × ν), p ∈ mapSet k v m →
      p = (k, v) ∨ p ∈ m
  | [], p, hp => by
      simp only [mapSet, List.mem_singleton] at hp
      exact Or.inl hp
  | (k', v') :: rest, p, hp => by
      by_cases hk : k' = k
      · simp only [mapSet, if_pos hk, List.mem_cons] at hp
        rcases hp with h | h
        · exact Or.inl h
        · exact Or.inr (List.mem_cons_of_mem _ h)
      · simp only [mapSet, if_neg hk, List.mem_cons] at hp
        rcases hp with h | h
        · exact Or.inr (h ▸ List.mem_cons_self _ _)
        · rcases mapSet_mem k v rest p h with h' | h'
          · exact Or.inl h'
          · exact Or.inr (List.mem_cons_of_mem _ h')

/-- `Map.set` commutes with an entry translation whose key component
is injective on the keys involved. -/
theorem mapSet_map_comm {κ κ' ν ν' : Type} [DecidableEq κ]
    [DecidableEq κ'] (σ : κ → κ') (τ : ν → ν') (k : κ) (v : ν) :
    ∀ (m : List (κ × ν)), (∀ p ∈ m, σ p.1 = σ k → p.1 = k) →
      mapSet (σ k) (τ v) (m.map (fun p => (σ p.1, τ p.2))) =
        (mapSet k v m).map (fun p => (σ p.1, τ p.2))
  | [], _ => rfl
  | (k', v') :: rest, hinj => by
      by_cases hk : k' = k
      · simp only [List.map_cons, mapSet, if_pos hk,
          if_pos (congrArg σ hk), List.map_cons]
      · have hσ : ¬ σ k' = σ k := fun he =>
          hk (hinj (k', v') (List.mem_cons_self _ _) he)
        simp only [List.map_cons, mapSet, if_neg hk, if_neg hσ,
          List.map_cons, List.cons.injEq, true_and]
        exact mapSet_map_comm σ τ k v rest
          (fun p hp => hinj p (List.mem_cons_of_mem _ hp))

/-- The replay refinement: on events below the cut-off with colon-free
delegate data, the source's `reconstructStateFromEvents` loop computes
exactly the spec's fold — owner (`null` read as the seed), the
delegate map through `entStr`, and the attribute map verbatim. -/
theorem replay_rel (P : Nat) (addr : String) :
    ∀ (l : List EventRec) (o : Option String)
      (dm : List ((String × String) × DelegateView))
      (am : List (String × AttributeView)),
      delegEventsClean l = true →
      (∀ e ∈ l, e.blockNumber ≤ P) →
      (∀ p ∈ dm, colonFree p.1.2 = true) →
      (reconstructLoop P l o (dm.map entStr) am).1.getD addr =
          (specReplayRaw l (o.getD addr) dm am).1 ∧
        (reconstructLoop P l o (dm.map entStr) am).2.1 =
          ((specReplayRaw l (o.getD addr) dm am).2.1).map entStr ∧
        (reconstructLoop P l o (dm.map entStr) am).2.2 =
          (specReplayRaw l (o.getD addr) dm am).2.2
  | [], o, dm, am, _, _, _ => ⟨rfl, rfl, rfl⟩
  | e :: rest, o, dm, am, hclean, hblock, hdm => by
      have hcleanTail : delegEventsClean rest = true :=
        List.all_eq_true.mpr (fun x hx =>
          List.all_eq_true.mp hclean x (List.mem_cons_of_mem _ hx))
      have hblockTail : ∀ x ∈ rest, x.blockNumber ≤ P :=
        fun x hx => hblock x (List.mem_cons_of_mem _ hx)
      have hble : ¬ e.blockNumber > P := by
        have := hblock e (List.mem_cons_self _ _)
        omega
      cases harg : e.args with
      | ownerArgs i ow pc =>
          have := replay_rel P addr rest (some (lowerStr ow)) dm am
            hcleanTail hblockTail hdm
          simp only [reconstructLoop, if_neg hble, harg,
            specReplayRaw]
          simpa using this
      | delegArgs i dt d v pc =>
          have hheadclean := List.all_eq_true.mp hclean e
            (List.mem_cons_self _ _)
          rw [harg] at hheadclean
          simp only at hheadclean
          obtain ⟨hdt, hdl⟩ := Bool.and_eq_true_iff.mp hheadclean
          have hinj : ∀ p ∈ dm,
              (fun q : String × String => q.1 ++ ":" ++ q.2) p.1 =
                (fun q : String × String => q.1 ++ ":" ++ q.2)
                  (dt, lowerStr d) →
              p.1 = (dt, lowerStr d) := by
            intro p hp he
            have := strKey_inj (hdm p hp) hdl he
            exact Prod.ext this.1 this.2
          have hcomm := mapSet_map_comm
            (fun q : String × String => q.1 ++ ":" ++ q.2)
            (id : DelegateView → DelegateView)
            (dt, lowerStr d) ⟨dt, lowerStr d, v⟩ dm hinj
          have hdm' : ∀ p ∈ mapSet (dt, lowerStr d)
              (⟨dt, lowerStr d, v⟩ : DelegateView) dm,
              colonFree p.1.2 = true := by
            intro p hp
            rcases mapSet_mem _ _ dm p hp with h | h
            · rw [h]
              exact hdl
            · exact hdm p h
          have := replay_rel P addr rest o
            (mapSet (dt, lowerStr d) ⟨dt, lowerStr d, v⟩ dm) am
            hcleanTail hblockTail hdm'
          simp only [reconstructLoop, if_neg hble, harg,
            specReplayRaw]
          have hcomm' : mapSet (dt ++ ":" ++ lowerStr d)
              (⟨dt, lowerStr d, v⟩ : DelegateView) (dm.map entStr) =
              (mapSet (dt, lowerStr d)
                (⟨dt, lowerStr d, v⟩ : DelegateView) dm).map entStr :=
            hcomm
          rw [hcomm']
          exact this
      | attrArgs i n val v pc =>
          have := replay_rel P addr rest o dm
            (mapSet n ⟨n, val, v⟩ am) hcleanTail hblockTail hdm
          simp only [reconstructLoop, if_neg hble, harg,
            specReplayRaw]
          simpa using this

/-- C1: on a well-formed store (events in append order, colon-free
delegate data) the historical state computed by
`resolveAtBlockState` — its `null` owner read as "self-owned", exactly
as `buildDidDocument` and `getOwnerAtBlock` consume it — equals the
spec's left-to-right fold of exactly the identity's events with
position at most `P`: owner seeded with the identity itself and
overwritten by each `OwnerChanged`, delegates and attributes as
latest-event-per-key maps, so a later revoke only narrows `validTo`. -/
theorem stateAt_replays_events (db : Db) (did : String) (P : Nat)
    (hord : StoreOrdered db) (hclean : delegEventsClean db.events = true) :
    (resolveAtBlockState db did P).owner.getD (extractAddress did) =
        (specStateAt db did P).owner ∧
      (resolveAtBlockState db did P).delegates =
        (specStateAt db did P).delegates ∧
      (resolveAtBlockState db did P).attributes =
        (specStateAt db did P).attributes := by
  have hpw := hord.pairwise
  have hsort1 : sortBy ascLe (db.events.filter
      (fun e => e.blockNumber ≤ P)) =
      db.events.filter (fun e => e.blockNumber ≤ P) :=
    sortBy_ascLe_eq_self (hpw.filter _)
  have hsort2 : sortBy ascLe db.events = db.events :=
    sortBy_ascLe_eq_self hpw
  have hlists : (db.events.filter
        (fun e => e.blockNumber ≤ P)).filter
        (fun e => lowerStr e.identity ==
          lowerStr (extractAddress did)) =
      db.events.filter (fun e => lowerStr e.identity ==
        lowerStr (extractAddress did) && e.blockNumber ≤ P) := by
    rw [List.filter_filter]
  set L := db.events.filter (fun e => lowerStr e.identity ==
    lowerStr (extractAddress did) && e.blockNumber ≤ P) with hL
  have hcleanL : delegEventsClean L = true :=
    List.all_eq_true.mpr (fun e he =>
      List.all_eq_true.mp hclean e (List.mem_of_mem_filter he))
  have hblockL : ∀ e ∈ L, e.blockNumber ≤ P := by
    intro e he
    have := (List.mem_filter.mp he).2
    have := Bool.and_eq_true_iff.mp this
    exact of_decide_eq_true this.2
  have hrel := replay_rel P (extractAddress did) L none [] []
    hcleanL hblockL (by intro p hp; cases hp)
  simp only [List.map_nil] at hrel
  have hcode : resolveAtBlockState db did P =
      ⟨(reconstructLoop P L none [] []).1,
        (reconstructLoop P L none [] []).2.1.map Prod.snd,
        (reconstructLoop P L none [] []).2.2.map Prod.snd⟩ := by
    simp only [resolveAtBlockState, reconstructStateFromEvents,
      hsort1, hlists, hL]
  have hspec : specStateAt db did P =
      ⟨(specReplayRaw L (extractAddress did) [] []).1,
        (specReplayRaw L (extractAddress did) [] []).2.1.map Prod.snd,
        (specReplayRaw L (extractAddress did) [] []).2.2.map Prod.snd⟩ := by
    simp only [specStateAt, specEventsFor, hsort2, hL]
  rw [hcode, hspec]
  refine ⟨hrel.1, ?_, congrArg (List.map Prod.snd) hrel.2.2⟩
  rw [hrel.2.1, List.map_map]
  rfl

/-- Witness for C1 on the concrete one-event store. -/
theorem stateAt_replays_events_witness :
    StoreOrdered dbDeleg ∧ delegEventsClean dbDeleg.events = true ∧
      ((resolveAtBlockState dbDeleg "did:ethr:0xIssuer" 5).owner.getD
          (extractAddress "did:ethr:0xIssuer") =
        (specStateAt dbDeleg "did:ethr:0xIssuer" 5).owner ∧
      (resolveAtBlockState dbDeleg "did:ethr:0xIssuer" 5).delegates =
        (specStateAt dbDeleg "did:ethr:0xIssuer" 5).delegates ∧
      (resolveAtBlockState dbDeleg "did:ethr:0xIssuer" 5).attributes =
        (specStateAt dbDeleg "did:ethr:0xIssuer" 5).attributes) :=
  ⟨List.Chain.nil, by decide,
    stateAt_replays_events dbDeleg "did:ethr:0xIssuer" 5 List.Chain.nil
      (by decide)⟩

/-! ## C2: the signer-authority check -/

theorem toNat_ofNat_valid {n : Nat} (h : n < 55296) :
    (Char.ofNat n).toNat = n := by
  have hv : Nat.isValidChar n := Or.inl h
  simp only [Char.ofNat, hv, dif_pos]
  rfl

theorem toLower_idem (c : Char) : c.toLower.toLower = c.toLower := by
  simp only [Char.toLower]
  by_cases h : c.toNat ≥ 65 ∧ c.toNat ≤ 90
  · rw [if_pos h]
    have ht : (Char.ofNat (c.toNat + 32)).toNat = c.toNat + 32 :=
      toNat_ofNat_valid (by omega)
    rw [if_neg (by omega)]
  · rw [if_neg h, if_neg h]

theorem lowerStr_idem (s : String) : lowerStr (lowerStr s) = lowerStr s := by
  unfold lowerStr
  refine congrArg String.mk ?_
  rw [List.map_map]
  exact List.map_congr_left fun c _ => toLower_idem c

theorem lowerStr_extractAddress (did : String) :
    lowerStr (extractAddress did) = extractAddress did := by
  unfold extractAddress
  exact lowerStr_idem _

theorem find?_reverse_eq {α : Type} (p : α → Bool) (l : List α) :
    l.reverse.find? p = (l.filter p).getLast? := by
  induction l using List.reverseRecOn with
  | nil => rfl
  | append_singleton l a IH =>
      rw [List.reverse_append]
      cases hpa : p a with
      | false =>
          simp only [List.reverse_cons, List.reverse_nil,
            List.nil_append, List.singleton_append, List.find?_cons,
            hpa, List.filter_append, List.filter_cons, List.filter_nil,
            Bool.false_eq_true, ite_false, List.append_nil]
          exact IH
      | true =>
          simp [List.find?_cons, hpa, List.filter_append,
            List.getLast?_concat]

theorem specReplayRaw_append :
    ∀ (l1 l2 : List EventRec) (o : String)
      (dm : List ((String × String) × DelegateView))
      (am : List (String × AttributeView)),
      specReplayRaw (l1 ++ l2) o dm am =
        specReplayRaw l2 (specReplayRaw l1 o dm am).1
          (specReplayRaw l1 o dm am).2.1 (specReplayRaw l1 o dm am).2.2
  | [], _, _, _, _ => rfl
  | e :: rest, l2, o, dm, am => by
      cases harg : e.args <;>
        simp only [List.cons_append, specReplayRaw, harg] <;>
        exact specReplayRaw_append rest l2 _ _ _

/-- The owner produced by the spec's fold is the last `OwnerChanged`
event's owner, or the seed. -/
theorem specReplayRaw_owner (l : List EventRec) :
    ∀ (o : String) (dm : List ((String × String) × DelegateView))
      (am : List (String × AttributeView)),
      (specReplayRaw l o dm am).1 =
        match (l.filter
            (fun e => e.eventName == "DIDOwnerChanged")).getLast? with
        | some e => lowerStr e.ownerArg
        | none => o := by
  induction l using List.reverseRecOn with
  | nil => intro o dm am; rfl
  | append_singleton l e IH =>
      intro o dm am
      rw [specReplayRaw_append l [e] o dm am]
      cases harg : e.args with
      | ownerArgs i ow pc =>
          have hev : (e.eventName == "DIDOwnerChanged") = true := by
            simp [EventRec.eventName, harg]
          simp only [specReplayRaw, harg, List.filter_append,
            List.filter_cons, hev, if_pos, List.filter_nil,
            List.getLast?_concat]
          simp [EventRec.ownerArg, harg]
      | delegArgs i dt d v pc =>
          have hev : (e.eventName == "DIDOwnerChanged") = false := by
            simp [EventRec.eventName, harg]
          simp only [specReplayRaw, harg, List.filter_append,
            List.filter_cons, hev, List.filter_nil, Bool.false_eq_true,
            ite_false, List.append_nil]
          exact IH o dm am
      | attrArgs i n val v pc =>
          have hev : (e.eventName == "DIDOwnerChanged") = false := by
            simp [EventRec.eventName, harg]
          simp only [specReplayRaw, harg, List.filter_append,
            List.filter_cons, hev, List.filter_nil, Bool.false_eq_true,
            ite_false, List.append_nil]
          exact IH o dm am

/-- The descending scan of `getOwnerAtBlock` computes the spec fold's
owner (`stateAt`'s historical owner, the identity itself when no
`OwnerChanged` event exists). -/
theorem getOwnerAtBlock_eq_specOwner (db : Db) (did : String) (P : Nat)
    (hord : StoreOrdered db) :
    getOwnerAtBlock db did P = (specStateAt db did P).owner := by
  have hpw := hord.pairwise
  have hdesc : sortBy descLe (db.events.filter (fun e =>
      e.eventName == "DIDOwnerChanged" && e.blockNumber ≤ P)) =
      (db.events.filter (fun e =>
        e.eventName == "DIDOwnerChanged" && e.blockNumber ≤ P)).reverse :=
    sortBy_descLe_eq_reverse (hpw.filter _)
  have hsort2 : sortBy ascLe db.events = db.events :=
    sortBy_ascLe_eq_self hpw
  have hcodeList : ((db.events.filter (fun e =>
      e.eventName == "DIDOwnerChanged" && e.blockNumber ≤ P)).filter
      (fun e => lowerStr e.identity == lowerStr (extractAddress did))) =
      db.events.filter (fun e =>
        (lowerStr e.identity == lowerStr (extractAddress did) &&
          e.blockNumber ≤ P) && e.eventName == "DIDOwnerChanged") := by
    rw [List.filter_filter]
    refine List.filter_congr fun e _ => ?_
    cases h1 : (e.eventName == "DIDOwnerChanged") <;>
      cases h2 : (decide (e.blockNumber ≤ P)) <;>
      cases h3 : (lowerStr e.identity ==
        lowerStr (extractAddress did)) <;>
      simp [h1, h2, h3]
  have hspecList : (db.events.filter (fun e =>
      lowerStr e.identity == lowerStr (extractAddress did) &&
        e.blockNumber ≤ P)).filter
      (fun e => e.eventName == "DIDOwnerChanged") =
      db.events.filter (fun e =>
        (lowerStr e.identity == lowerStr (extractAddress did) &&
          e.blockNumber ≤ P) && e.eventName == "DIDOwnerChanged") := by
    rw [List.filter_filter]
    refine List.filter_congr fun e _ => ?_
    cases h1 : (e.eventName == "DIDOwnerChanged") <;>
      cases h2 : (decide (e.blockNumber ≤ P)) <;>
      cases h3 : (lowerStr e.identity ==
        lowerStr (extractAddress did)) <;>
      simp [h1, h2, h3]
  simp only [getOwnerAtBlock, hdesc, find?_reverse_eq, hcodeList]
  simp only [specStateAt, specEventsFor, hsort2]
  rw [specReplayRaw_owner, hspecList]
  cases (db.events.filter (fun e =>
      (lowerStr e.identity == lowerStr (extractAddress did) &&
        e.blockNumber ≤ P) &&
        e.eventName == "DIDOwnerChanged")).getLast? with
  | none => exact lowerStr_extractAddress did
  | some e => rfl

/-- The delegate-map component of the spec fold only depends on the
delegate argument bags. -/
theorem specReplayRaw_dm :
    ∀ (l : List EventRec) (o : String)
      (dm : List ((String × String) × DelegateView))
      (am : List (String × AttributeView)),
      (specReplayRaw l o dm am).2.1 = dmOnly l dm
  | [], _, _, _ => rfl
  | e :: rest, o, dm, am => by
      cases harg : e.args <;>
        simp only [specReplayRaw, dmOnly, harg] <;>
        exact specReplayRaw_dm rest _ _ _

/-- Restricting to `DIDDelegateChanged` rows does not change the
delegate fold. -/
theorem dmOnly_filter_eventName :
    ∀ (l : List EventRec)
      (dm : List ((String × String) × DelegateView)),
      dmOnly (l.filter
        (fun e => e.eventName == "DIDDelegateChanged")) dm =
        dmOnly l dm
  | [], _ => rfl
  | e :: rest, dm => by
      cases harg : e.args with
      | ownerArgs i ow pc =>
          have hev : (e.eventName == "DIDDelegateChanged") = false := by
            simp [EventRec.eventName, harg]
          simp only [List.filter_cons, hev, Bool.false_eq_true,
            ite_false, dmOnly, harg]
          exact dmOnly_filter_eventName rest dm
      | delegArgs i dt d v pc =>
          have hev : (e.eventName == "DIDDelegateChanged") = true := by
            simp [EventRec.eventName, harg]
          simp only [List.filter_cons, hev, ite_true, dmOnly, harg]
          exact dmOnly_filter_eventName rest _
      | attrArgs i n val v pc =>
          have hev : (e.eventName == "DIDDelegateChanged") = false := by
            simp [EventRec.eventName, harg]
          simp only [List.filter_cons, hev, Bool.false_eq_true,
            ite_false, dmOnly, harg]
          exact dmOnly_filter_eventName rest dm

theorem any_map_comp {α β : Type} (f : α → β) (p : β → Bool) :
    ∀ l : List α, (l.map f).any p = l.any (fun a => p (f a))
  | [] => rfl
  | a :: t => by
      simp only [List.map_cons, List.any_cons, any_map_comp f p t]

theorem any_congr_mem {α : Type} {p q : α → Bool} :
    ∀ {l : List α}, (∀ x ∈ l, p x = q x) → l.any p = l.any q
  | [], _ => rfl
  | a :: t, h => by
      simp only [List.any_cons, h a (List.mem_cons_self a t),
        any_congr_mem fun x hx => h x (List.mem_cons_of_mem _ hx)]

/-- The coherence invariant of delegate-map entries built by the spec
fold: the stored view repeats the key components, and both components
are colon-free when the event data is. -/
def dmInv (p : (String × String) × DelegateView) : Prop :=
  p.2.delegateType = p.1.1 ∧ p.2.delegateAddress = p.1.2 ∧
    colonFree p.1.1 = true ∧ colonFree p.1.2 = true

theorem dmOnly_inv :
    ∀ (l : List EventRec)
      (dm : List ((String × String) × DelegateView)),
      delegEventsClean l = true → (∀ p ∈ dm, dmInv p) →
      ∀ p ∈ dmOnly l dm, dmInv p
  | [], dm, _, hdm => hdm
  | e :: rest, dm, hclean, hdm => by
      have hcleanTail : delegEventsClean rest = true :=
        List.all_eq_true.mpr (fun x hx =>
          List.all_eq_true.mp hclean x (List.mem_cons_of_mem _ hx))
      cases harg : e.args with
      | ownerArgs i ow pc =>
          simp only [dmOnly, harg]
          exact dmOnly_inv rest dm hcleanTail hdm
      | delegArgs i dt d v pc =>
          have hheadclean := List.all_eq_true.mp hclean e
            (List.mem_cons_self _ _)
          rw [harg] at hheadclean
          simp only at hheadclean
          obtain ⟨hdt, hdl⟩ := Bool.and_eq_true_iff.mp hheadclean
          simp only [dmOnly, harg]
          refine dmOnly_inv rest _ hcleanTail ?_
          intro p hp
          rcases mapSet_mem _ _ dm p hp with h | h
          · rw [h]
            exact ⟨rfl, rfl, hdt, hdl⟩
          · exact hdm p h
      | attrArgs i n val v pc =>
          simp only [dmOnly, harg]
          exact dmOnly_inv rest dm hcleanTail hdm

/-- Refinement of the string-keyed `validTo` map built inside
`wasValidSignerAtBlock` by the spec's pair-keyed delegate fold over
the identity's delegate events. -/
theorem delegLoop_rel (addr : String) :
    ∀ (l : List EventRec)
      (dm : List ((String × String) × DelegateView)),
      delegEventsClean l = true →
      (∀ p ∈ dm, colonFree p.1.2 = true) →
      delegateStateLoop addr l (dm.map entNat) =
        (dmOnly (l.filter (fun e =>
          lowerStr e.identity == lowerStr addr)) dm).map entNat
  | [], _, _, _ => rfl
  | e :: rest, dm, hclean, hdm => by
      have hcleanTail : delegEventsClean rest = true :=
        List.all_eq_true.mpr (fun x hx =>
          List.all_eq_true.mp hclean x (List.mem_cons_of_mem _ hx))
      have hident : ∀ b : Bool,
          (lowerStr e.identity == lowerStr addr) = b →
          (lowerStr e.identity == lowerStr addr) = b := fun _ h => h
      cases harg : e.args with
      | ownerArgs i ow pc =>
          cases hid : (lowerStr e.identity == lowerStr addr) with
          | true =>
              simp only [delegateStateLoop, harg, List.filter_cons, hid,
                ite_true, dmOnly]
              exact delegLoop_rel addr rest dm hcleanTail hdm
          | false =>
              simp only [delegateStateLoop, harg, List.filter_cons, hid,
                Bool.false_eq_true, ite_false]
              exact delegLoop_rel addr rest dm hcleanTail hdm
      | attrArgs i n val v pc =>
          cases hid : (lowerStr e.identity == lowerStr addr) with
          | true =>
              simp only [delegateStateLoop, harg, List.filter_cons, hid,
                ite_true, dmOnly]
              exact delegLoop_rel addr rest dm hcleanTail hdm
          | false =>
              simp only [delegateStateLoop, harg, List.filter_cons, hid,
                Bool.false_eq_true, ite_false]
              exact delegLoop_rel addr rest dm hcleanTail hdm
      | delegArgs i dt d v pc =>
          have hheadclean := List.all_eq_true.mp hclean e
            (List.mem_cons_self _ _)
          rw [harg] at hheadclean
          simp only at hheadclean
          obtain ⟨hdt, hdl⟩ := Bool.and_eq_true_iff.mp hheadclean
          have hie : e.identity = i := by simp [EventRec.identity, harg]
          cases hid : (lowerStr e.identity == lowerStr addr) with
          | true =>
              have hid' : (lowerStr i == lowerStr addr) = true := by
                rw [← hie]
                exact hid
              simp only [delegateStateLoop, harg, hid', ite_true,
                List.filter_cons, hid, dmOnly]
              have hinj : ∀ p ∈ dm,
                  (fun q : String × String => q.1 ++ ":" ++ q.2) p.1 =
                    (fun q : String × String => q.1 ++ ":" ++ q.2)
                      (dt, lowerStr d) →
                  p.1 = (dt, lowerStr d) := by
                intro p hp he
                have := strKey_inj (hdm p hp) hdl he
                exact Prod.ext this.1 this.2
              have hcomm := mapSet_map_comm
                (fun q : String × String => q.1 ++ ":" ++ q.2)
                (fun dv : DelegateView => dv.validTo)
                (dt, lowerStr d) ⟨dt, lowerStr d, v⟩ dm hinj
              have hcomm' : mapSet (dt ++ ":" ++ lowerStr d) v
                  (dm.map entNat) =
                  (mapSet (dt, lowerStr d)
                    (⟨dt, lowerStr d, v⟩ : DelegateView) dm).map entNat :=
                hcomm
              rw [hcomm']
              have hdm' : ∀ p ∈ mapSet (dt, lowerStr d)
                  (⟨dt, lowerStr d, v⟩ : DelegateView) dm,
                  colonFree p.1.2 = true := by
                intro p hp
                rcases mapSet_mem _ _ dm p hp with h | h
                · rw [h]
                  exact hdl
                · exact hdm p h
              exact delegLoop_rel addr rest _ hcleanTail hdm'
          | false =>
              have hid' : (lowerStr i == lowerStr addr) = false := by
                rw [← hie]
                exact hid
              simp only [delegateStateLoop, harg, hid',
                Bool.false_eq_true, ite_false, List.filter_cons, hid]
              exact delegLoop_rel addr rest dm hcleanTail hdm

/-- C2, corrected statement: the authority check of
`wasValidSignerAtBlock` (hence of `verify`, which calls it at the
position resolved from the issuance timestamp) succeeds iff the signer
is the historical owner at the resolved position, or a delegate of the
identity whose `validTo` exceeds the *timestamp of the resolved
block* — not the issuance timestamp itself. -/
theorem wasValidSigner_characterization (db : Db) (chain : Chain)
    (did s : String) (P : Nat)
    (hord : StoreOrdered db)
    (hclean : delegEventsClean db.events = true) :
    wasValidSignerAtBlock db chain did s P =
      (((specStateAt db did P).owner == lowerStr s) ||
        (specStateAt db did P).delegates.any (fun d =>
          d.delegateAddress == lowerStr s &&
            chain.blockTimestamp P < d.validTo)) := by
  have hpw := hord.pairwise
  have howner := getOwnerAtBlock_eq_specOwner db did P hord
  simp only [wasValidSignerAtBlock, howner]
  cases hc : ((specStateAt db did P).owner == lowerStr s) with
  | true => simp [hc]
  | false =>
      simp only [hc, Bool.false_or, Bool.false_eq_true, ite_false]
      have hsortD : sortBy ascLe (db.events.filter (fun e =>
          e.eventName == "DIDDelegateChanged" && e.blockNumber ≤ P)) =
          db.events.filter (fun e =>
            e.eventName == "DIDDelegateChanged" && e.blockNumber ≤ P) :=
        sortBy_ascLe_eq_self (hpw.filter _)
      have hsort2 : sortBy ascLe db.events = db.events :=
        sortBy_ascLe_eq_self hpw
      have hcleanD : delegEventsClean (db.events.filter (fun e =>
          e.eventName == "DIDDelegateChanged" && e.blockNumber ≤ P)) =
          true :=
        List.all_eq_true.mpr (fun e he =>
          List.all_eq_true.mp hclean e (List.mem_of_mem_filter he))
      have hloop := delegLoop_rel (extractAddress did)
        (db.events.filter (fun e =>
          e.eventName == "DIDDelegateChanged" && e.blockNumber ≤ P))
        [] hcleanD (by intro p hp; cases hp)
      simp only [List.map_nil] at hloop
      rw [hsortD, hloop]
      have hcodeList : ((db.events.filter (fun e =>
          e.eventName == "DIDDelegateChanged" && e.blockNumber ≤ P)).filter
          (fun e => lowerStr e.identity ==
            lowerStr (extractAddress did))) =
          db.events.filter (fun e =>
            (lowerStr e.identity == lowerStr (extractAddress did) &&
              e.blockNumber ≤ P) &&
              e.eventName == "DIDDelegateChanged") := by
        rw [List.filter_filter]
        refine List.filter_congr fun e _ => ?_
        cases h1 : (e.eventName == "DIDDelegateChanged") <;>
          cases h2 : (decide (e.blockNumber ≤ P)) <;>
          cases h3 : (lowerStr e.identity ==
            lowerStr (extractAddress did)) <;>
          simp [h1, h2, h3]
      have hspecList : (db.events.filter (fun e =>
          lowerStr e.identity == lowerStr (extractAddress did) &&
            e.blockNumber ≤ P)).filter
          (fun e => e.eventName == "DIDDelegateChanged") =
          db.events.filter (fun e =>
            (lowerStr e.identity == lowerStr (extractAddress did) &&
              e.blockNumber ≤ P) &&
              e.eventName == "DIDDelegateChanged") := by
        rw [List.filter_filter]
        refine List.filter_congr fun e _ => ?_
        cases h1 : (e.eventName == "DIDDelegateChanged") <;>
          cases h2 : (decide (e.blockNumber ≤ P)) <;>
          cases h3 : (lowerStr e.identity ==
            lowerStr (extractAddress did)) <;>
          simp [h1, h2, h3]
      rw [hcodeList]
      have hspecDeleg : (specStateAt db did P).delegates =
          (dmOnly (db.events.filter (fun e =>
            (lowerStr e.identity == lowerStr (extractAddress did) &&
              e.blockNumber ≤ P) &&
              e.eventName == "DIDDelegateChanged")) []).map Prod.snd := by
        simp only [specStateAt, specEventsFor, hsort2]
        rw [specReplayRaw_dm, ← dmOnly_filter_eventName, hspecList]
      rw [hspecDeleg]
      set D := db.events.filter (fun e =>
        (lowerStr e.identity == lowerStr (extractAddress did) &&
          e.blockNumber ≤ P) &&
          e.eventName == "DIDDelegateChanged") with hD
      have hcleanDD : delegEventsClean D = true :=
        List.all_eq_true.mpr (fun e he =>
          List.all_eq_true.mp hclean e (List.mem_of_mem_filter he))
      have hinv := dmOnly_inv D [] hcleanDD (by intro p hp; cases hp)
      rw [any_map_comp, any_map_comp]
      refine any_congr_mem fun q hq => ?_
      obtain ⟨hqt, hqa, hcf1, hcf2⟩ := hinv q hq
      have hparse : (splitOnChar ':'
          (q.1.1 ++ ":" ++ q.1.2).data).getD 1 [] = q.1.2.data := by
        rw [strKey_data, splitOnChar_append_cons ':' q.1.2.data
          (colonFree_not_mem hcf1),
          splitOnChar_of_not_mem ':' (colonFree_not_mem hcf2)]
        rfl
      have hbeq : (q.1.2.data == (lowerStr s).data) =
          (q.2.delegateAddress == lowerStr s) := by
        rw [hqa]
        cases hq2 : (q.1.2 == lowerStr s) with
        | true =>
            have := eq_of_beq hq2
            simp [this]
        | false =>
            have : ¬ q.1.2 = lowerStr s := by
              intro he
              rw [he] at hq2
              simp at hq2
            have hdne : ¬ q.1.2.data = (lowerStr s).data :=
              fun hd => this (strExt hd)
            simp only [beq_eq_false_iff_ne, ne_eq]
            exact hdne
      simp only [Function.comp, entNat, hparse, hbeq]

/-- Witness for the corrected C2 statement, with the Scenario-C values
on a chain that has a block exactly at the issuance timestamps:
`wasValidSignerAt(X, D, t=1500) = true` and
`wasValidSignerAt(X, D, t=2500) = false` for the delegate granted with
`validTo = 2000`. -/
theorem wasValidSigner_characterization_witness :
    StoreOrdered dbDeleg ∧ delegEventsClean dbDeleg.events = true ∧
      wasValidSignerAtBlock dbDeleg chainScen "did:ethr:0xissuer"
          "0xdel" 2 =
        (((specStateAt dbDeleg "did:ethr:0xissuer" 2).owner ==
            lowerStr "0xdel") ||
          (specStateAt dbDeleg "did:ethr:0xissuer" 2).delegates.any
            (fun d => d.delegateAddress == lowerStr "0xdel" &&
              chainScen.blockTimestamp 2 < d.validTo)) ∧
      wasValidSignerAtTime dbDeleg chainScen "did:ethr:0xissuer"
          "0xdel" 1500 = true ∧
      wasValidSignerAtTime dbDeleg chainScen "did:ethr:0xissuer"
          "0xdel" 2500 = false := by
  refine ⟨List.Chain.nil, by decide,
    wasValidSigner_characterization dbDeleg chainScen
      "did:ethr:0xissuer" "0xdel" 2 List.Chain.nil (by decide),
    ?_, ?_⟩
  · have h1 : getBlockByTimestamp chainScen 1500 = 2 := by
      simp [getBlockByTimestamp, searchLoop, chainScen]
    unfold wasValidSignerAtTime
    rw [h1]
    decide
  · have h1 : getBlockByTimestamp chainScen 2500 = 3 := by
      simp [getBlockByTimestamp, searchLoop, chainScen]
    unfold wasValidSignerAtTime
    rw [h1]
    decide

/-- C2, counterexample to the claim as stated: on a chain whose blocks
carry timestamps 0 and 3000, a credential issued at `t = 1500` by an
identity whose delegate was granted with `validTo = 2000` fails the
check (`wasValidSignerAtTime = false`) although the delegate's
`validTo` exceeds the issuance timestamp — the code compares `validTo`
against the *resolved block's* timestamp (3000), not the issuance
timestamp. -/
theorem wasValidSigner_counter_issuance_ts :
    wasValidSignerAtTime dbDeleg chainGap "did:ethr:0xissuer"
        "0xdel" 1500 = false ∧
      (specStateAt dbDeleg "did:ethr:0xissuer"
          (getBlockByTimestamp chainGap 1500)).delegates.any
        (fun d => d.delegateAddress == lowerStr "0xdel" &&
          1500 < d.validTo) = true := by
  have h1 : getBlockByTimestamp chainGap 1500 = 1 := by
    simp [getBlockByTimestamp, searchLoop, chainGap]
  constructor
  · unfold wasValidSignerAtTime
    rw [h1]
    decide
  · rw [h1]
    decide

/-- C5, counterexample to the claim as stated: with the ledger down,
`verify` reports the authority check as passed for a signer who is
*not* the issuer's current authority (the projection says the identity
is owned by `0xother`, and there are no delegate rows), because the
fallback reuses the signature check instead of comparing against
current authority. -/
theorem verify_fallback_counter :
    envDown.ledger = none ∧
      (verify dbScen envDown "cred-a" 100).checks.signerValidAtIssuance =
        true ∧
      specCurrentAuthority dbScen "did:ethr:0xissuer"
          (recoveredAddressOf envDown credA) 100 = false := by
  refine ⟨rfl, by decide, by decide⟩

end DidExample
